import Mathlib

/-!
Verification development for the LLSD structured-data codec engine of this
repository (binary, notation and XML wire formats).  The codec engine itself
(`llsd.h` / `llsdserialize.h` implementations) is not part of the available
sources; only its unit tests (`llsdserialize_test.cpp`) are.  The definitions
below are therefore modelled from the specification document, with the unit
tests as the in-repository authority on observable behaviour.  Values are
modelled as a closed recursive sum; all wire text is modelled as lists of
bytes (natural numbers below 256).
-/

/-- Bytes of an ASCII string literal. -/
def strB (s : String) : List Nat := s.data.map Char.toNat

/-- Single-quote byte. -/
def sqB : Nat := 39

/-- Open-brace byte of the notation map grammar. -/
def obrB : Nat := 123

/-- Close-brace byte of the notation map grammar. -/
def cbrB : Nat := 125

/-- Decimal digit test on a byte. -/
def isDigitB (c : Nat) : Bool := 48 ≤ c && c ≤ 57

/-- Whitespace test on a byte (space, tab, LF, CR). -/
def isWsB (c : Nat) : Bool := c == 32 || c == 9 || c == 10 || c == 13

/-- Drop leading whitespace bytes. -/
def skipWs : List Nat → List Nat
  | [] => []
  | c :: rest => if isWsB c then skipWs rest else c :: rest

/-- Decimal text (most significant digit first) of a natural number. -/
def natText (n : Nat) : List Nat :=
  if n = 0 then [48] else (Nat.digits 10 n).reverse.map (· + 48)

/-- Value of a most-significant-first list of digit bytes. -/
def scanVal (l : List Nat) : Nat := l.foldl (fun a c => a * 10 + (c - 48)) 0

/-- Split a byte list into its leading run of decimal digits and the rest. -/
def takeDigits : List Nat → List Nat × List Nat
  | [] => ([], [])
  | c :: rest =>
    if isDigitB c then
      let (d, r) := takeDigits rest
      (c :: d, r)
    else ([], c :: rest)

theorem natText_digits : ∀ c ∈ natText n, isDigitB c = true := by
  intro c hc
  unfold natText at hc
  split at hc
  · simp at hc; simp [hc, isDigitB]
  · simp only [List.mem_map, List.mem_reverse] at hc
    obtain ⟨d, hd, rfl⟩ := hc
    have : d < 10 := Nat.digits_lt_base (by norm_num) hd
    simp [isDigitB]; omega

theorem natText_ne_nil (n : Nat) : natText n ≠ [] := by
  unfold natText
  split
  · simp
  · simp [Nat.digits_ne_nil_iff_ne_zero, *]

/-- A byte list whose head (if any) is not a decimal digit. -/
def noDigitHead : List Nat → Prop
  | [] => True
  | c :: _ => isDigitB c = false

theorem takeDigits_append (ds rest : List Nat) (h1 : ∀ c ∈ ds, isDigitB c = true)
    (h2 : noDigitHead rest) : takeDigits (ds ++ rest) = (ds, rest) := by
  induction ds with
  | nil =>
    cases rest with
    | nil => rfl
    | cons c r =>
      simp only [noDigitHead] at h2
      simp [takeDigits, h2]
  | cons c ds ih =>
    have hc := h1 c (by simp)
    have ih' := ih (fun x hx => h1 x (by simp [hx]))
    simp only [List.cons_append, takeDigits, hc, if_true, List.append_eq, ih']

theorem foldl_digits (ds : List Nat) (acc : Nat) (h : ∀ d ∈ ds, d < 10) :
    ((ds.reverse.map (· + 48)).foldl (fun a c => a * 10 + (c - 48)) acc) =
      acc * 10 ^ ds.length + Nat.ofDigits 10 ds := by
  induction ds generalizing acc with
  | nil => simp [Nat.ofDigits]
  | cons d ds ih =>
    simp only [List.reverse_cons, List.map_append, List.foldl_append, List.map_cons,
      List.map_nil, List.foldl_cons, List.foldl_nil]
    rw [ih acc (fun x hx => h x (by simp [hx]))]
    have hd : d < 10 := h d (by simp)
    simp only [Nat.ofDigits_cons, List.length_cons]
    ring_nf
    omega

theorem scanVal_natText (n : Nat) : scanVal (natText n) = n := by
  by_cases h : n = 0
  · simp [h, natText, scanVal]
  · unfold natText scanVal
    rw [if_neg h, foldl_digits _ 0 (fun d hd => Nat.digits_lt_base (by norm_num) hd)]
    simp [Nat.ofDigits_digits]

/-- Decimal text of an integer, with a leading minus sign when negative. -/
def intText (i : Int) : List Nat :=
  if i < 0 then 45 :: natText i.natAbs else natText i.toNat

/-- Read an optionally signed decimal integer from the head of a byte list. -/
def readInt (l : List Nat) : Option (Int × List Nat) :=
  if l.head? = some 45 then
    match takeDigits l.tail with
    | ([], _) => none
    | (ds, r) => some (-(scanVal ds : Int), r)
  else
    match takeDigits l with
    | ([], _) => none
    | (ds, r) => some ((scanVal ds : Int), r)

theorem readInt_intText (i : Int) (rest : List Nat) (h : noDigitHead rest) :
    readInt (intText i ++ rest) = some (i, rest) := by
  by_cases hneg : i < 0
  · simp only [intText, if_pos hneg, List.cons_append, readInt, List.head?_cons, if_pos rfl,
      List.tail_cons]
    rw [takeDigits_append _ _ (fun c hc => natText_digits c hc) h]
    obtain ⟨a, as, hnt⟩ := List.exists_cons_of_ne_nil (natText_ne_nil i.natAbs)
    rw [hnt]
    simp only []
    rw [← hnt, scanVal_natText]
    have habs : ((i.natAbs : Int)) = -i := by omega
    rw [habs, neg_neg]
    simp
  · simp only [intText, if_neg hneg]
    obtain ⟨a, as, hnt⟩ := List.exists_cons_of_ne_nil (natText_ne_nil i.toNat)
    have ha : isDigitB a = true := natText_digits a (by rw [hnt]; simp)
    have ha45 : a ≠ 45 := by intro hb; rw [hb] at ha; simp [isDigitB] at ha
    rw [hnt]
    simp only [readInt, List.cons_append, List.head?_cons]
    rw [if_neg (by simp [ha45])]
    rw [← List.cons_append, ← hnt,
      takeDigits_append _ _ (fun c hc => natText_digits c hc) h]
    rw [hnt]
    simp only []
    rw [← hnt, scanVal_natText]
    have htn : ((i.toNat : Int)) = i := by omega
    rw [htn]

/-- Hex digit byte (lowercase) of a nibble. -/
def hexDigit (n : Nat) : Nat := if n < 10 then 48 + n else 87 + n

/-- Value of a hex digit byte; 16 for non-hex bytes. -/
def hexVal (c : Nat) : Nat :=
  if 48 ≤ c && c ≤ 57 then c - 48
  else if 97 ≤ c && c ≤ 102 then c - 87
  else if 65 ≤ c && c ≤ 70 then c - 55
  else 16

/-- Hex digit test on a byte. -/
def isHexB (c : Nat) : Bool := hexVal c < 16

theorem hexVal_hexDigit (n : Nat) (h : n < 16) : hexVal (hexDigit n) = n := by
  unfold hexVal hexDigit
  split_ifs <;> simp_all <;> omega

theorem isHexB_hexDigit (n : Nat) (h : n < 16) : isHexB (hexDigit n) = true := by
  simp [isHexB, hexVal_hexDigit n h, h]

/-- Two lowercase hex digit bytes of a byte. -/
def byteHex (b : Nat) : List Nat := [hexDigit (b / 16), hexDigit (b % 16)]

/-- Hex text of a byte sequence. -/
def bytesHex : List Nat → List Nat
  | [] => []
  | b :: bs => byteHex b ++ bytesHex bs

/-- Decode a whole byte list as hex digit pairs. -/
def readHexPairs : List Nat → Option (List Nat)
  | [] => some []
  | a :: b :: rest =>
    if isHexB a && isHexB b then
      (readHexPairs rest).map (fun t => (hexVal a * 16 + hexVal b) :: t)
    else none
  | [_] => none

theorem bytesHex_append (xs ys : List Nat) :
    bytesHex (xs ++ ys) = bytesHex xs ++ bytesHex ys := by
  induction xs with
  | nil => rfl
  | cons x xs ih => simp [bytesHex, ih]

theorem readHexPairs_bytesHex (bs : List Nat) (h : ∀ b ∈ bs, b < 256) :
    readHexPairs (bytesHex bs) = some bs := by
  induction bs with
  | nil => rfl
  | cons b bs ih =>
    have hb : b < 256 := h b (by simp)
    have h1 : b / 16 < 16 := by omega
    have h2 : b % 16 < 16 := by omega
    have hb' : b / 16 * 16 + b % 16 = b := by omega
    simp only [bytesHex, byteHex, List.cons_append, List.nil_append, List.append_eq,
      readHexPairs, isHexB_hexDigit _ h1, isHexB_hexDigit _ h2, Bool.and_self, if_true,
      ih (fun x hx => h x (by simp [hx])), hexVal_hexDigit _ h1,
      hexVal_hexDigit _ h2, hb']
    rfl

/-- Read exactly `n` hex digit bytes. -/
def readHexN : Nat → List Nat → Option (List Nat × List Nat)
  | 0, l => some ([], l)
  | n + 1, c :: rest =>
    if isHexB c then (readHexN n rest).map (fun p => (c :: p.1, p.2)) else none
  | _ + 1, [] => none

theorem readHexN_append (h : List Nat) (rest : List Nat)
    (hh : ∀ c ∈ h, isHexB c = true) : readHexN h.length (h ++ rest) = some (h, rest) := by
  induction h with
  | nil => rfl
  | cons c h ih =>
    simp only [List.length_cons, List.cons_append, readHexN, hh c (by simp), if_true,
      List.append_eq, ih (fun x hx => hh x (by simp [hx]))]
    rfl

theorem bytesHex_isHex (bs : List Nat) (h : ∀ b ∈ bs, b < 256) :
    ∀ c ∈ bytesHex bs, isHexB c = true := by
  induction bs with
  | nil => simp [bytesHex]
  | cons b bs ih =>
    intro c hc
    have hb : b < 256 := h b (by simp)
    simp only [bytesHex, byteHex, List.cons_append, List.nil_append, List.mem_cons] at hc
    rcases hc with rfl | hc
    · exact isHexB_hexDigit _ (by omega)
    rcases hc with rfl | hc
    · exact isHexB_hexDigit _ (by omega)
    · exact ih (fun x hx => h x (by simp [hx])) c hc

theorem bytesHex_length (bs : List Nat) : (bytesHex bs).length = 2 * bs.length := by
  induction bs with
  | nil => rfl
  | cons b bs ih => simp [bytesHex, byteHex, ih]; omega

/-- Read exactly `n` bytes. -/
def readN : Nat → List Nat → Option (List Nat × List Nat)
  | 0, l => some ([], l)
  | n + 1, c :: rest => (readN n rest).map (fun p => (c :: p.1, p.2))
  | _ + 1, [] => none

theorem readN_append (t rest : List Nat) : readN t.length (t ++ rest) = some (t, rest) := by
  induction t with
  | nil => rfl
  | cons c t ih => simp [readN, ih]

theorem readN_split : ∀ n l t r, readN n l = some (t, r) → l = t ++ r ∧ t.length = n
  | 0, l, t, r, h => by
    simp only [readN, Option.some.injEq, Prod.mk.injEq] at h
    simp [← h.1, ← h.2]
  | n + 1, [], t, r, h => by simp [readN] at h
  | n + 1, c :: rest, t, r, h => by
    simp only [readN, Option.map_eq_some'] at h
    obtain ⟨⟨t', r'⟩, h1, h2⟩ := h
    obtain ⟨he, hl⟩ := readN_split n rest t' r' h1
    simp only [Prod.mk.injEq] at h2
    subst he
    simp [← h2.1, ← h2.2, hl]

/-- Big-endian 4-byte encoding of a natural number below 2^32. -/
def be32 (n : Nat) : List Nat := [n / 16777216 % 256, n / 65536 % 256, n / 256 % 256, n % 256]

/-- Read 4 bytes as a big-endian 32-bit natural. -/
def rd32 : List Nat → Option (Nat × List Nat)
  | a :: b :: c :: d :: rest => some (((a * 256 + b) * 256 + c) * 256 + d, rest)
  | _ => none

theorem rd32_be32 (n : Nat) (h : n < 4294967296) (rest : List Nat) :
    rd32 (be32 n ++ rest) = some (n, rest) := by
  simp only [be32, List.cons_append, List.nil_append, rd32, Option.some.injEq, Prod.mk.injEq,
    and_true]
  omega

/-- Big-endian 8-byte encoding of a natural number below 2^64. -/
def be64 (n : Nat) : List Nat := be32 (n / 4294967296) ++ be32 (n % 4294967296)

/-- Read 8 bytes as a big-endian 64-bit natural. -/
def rd64 (l : List Nat) : Option (Nat × List Nat) :=
  match rd32 l with
  | some (hi, r) =>
    match rd32 r with
    | some (lo, r') => some (hi * 4294967296 + lo, r')
    | none => none
  | none => none

theorem rd64_be64 (n : Nat) (h : n < 18446744073709551616) (rest : List Nat) :
    rd64 (be64 n ++ rest) = some (n, rest) := by
  have h1 : n / 4294967296 < 4294967296 := by omega
  have h2 : n % 4294967296 < 4294967296 := by omega
  simp only [be64, List.append_assoc, rd64, rd32_be32 _ h1, rd32_be32 _ h2]
  congr 2
  omega

/-- Base64 alphabet byte of a sextet. -/
def b64c (n : Nat) : Nat :=
  if n < 26 then 65 + n else if n < 52 then 71 + n else if n < 62 then n - 4
  else if n = 62 then 43 else 47

/-- Sextet value of a base64 alphabet byte; 64 for other bytes. -/
def b64v (c : Nat) : Nat :=
  if 65 ≤ c && c ≤ 90 then c - 65
  else if 97 ≤ c && c ≤ 122 then c - 71
  else if 48 ≤ c && c ≤ 57 then c + 4
  else if c = 43 then 62 else if c = 47 then 63 else 64

/-- Base64 alphabet test on a byte. -/
def isB64 (c : Nat) : Bool := b64v c < 64

theorem b64v_b64c (n : Nat) (h : n < 64) : b64v (b64c n) = n := by
  unfold b64v b64c
  split_ifs <;> simp_all <;> omega

theorem isB64_b64c (n : Nat) (h : n < 64) : isB64 (b64c n) = true := by
  simp [isB64, b64v_b64c n h, h]

theorem b64c_ne_61 (n : Nat) (h : n < 64) : b64c n ≠ 61 := by
  unfold b64c
  split_ifs <;> omega

/-- Base64 encoding of a byte sequence, with `=` padding. -/
def b64e : List Nat → List Nat
  | [] => []
  | [a] => [b64c (a / 4), b64c (a % 4 * 16), 61, 61]
  | [a, b] => [b64c (a / 4), b64c (a % 4 * 16 + b / 16), b64c (b % 16 * 4), 61]
  | a :: b :: c :: rest =>
    b64c (a / 4) :: b64c (a % 4 * 16 + b / 16) :: b64c (b % 16 * 4 + c / 64) ::
      b64c (c % 64) :: b64e rest

/-- Base64 decoding of a whitespace-free symbol list. -/
def b64dCore : List Nat → Option (List Nat)
  | [] => some []
  | a :: b :: c :: d :: rest =>
    if c == 61 then
      if (d == 61) && rest.isEmpty && isB64 a && isB64 b then
        some [b64v a * 4 + b64v b / 16]
      else none
    else if d == 61 then
      if rest.isEmpty && isB64 a && isB64 b && isB64 c then
        some [b64v a * 4 + b64v b / 16, b64v b % 16 * 16 + b64v c / 4]
      else none
    else
      if isB64 a && isB64 b && isB64 c && isB64 d then
        (b64dCore rest).map
          (fun t => (b64v a * 4 + b64v b / 16) :: (b64v b % 16 * 16 + b64v c / 4) ::
            (b64v c % 4 * 64 + b64v d) :: t)
      else none
  | _ => none

/-- Base64 decoding: embedded whitespace is skipped, then symbols decoded. -/
def b64d (l : List Nat) : Option (List Nat) := b64dCore (l.filter (fun c => !(isWsB c)))

theorem b64e_no_ws (bs : List Nat) : ∀ c ∈ b64e bs, isWsB c = false := by
  have key : ∀ n, isWsB (b64c n) = false := by
    intro n
    unfold b64c isWsB
    split_ifs <;> simp <;> omega
  induction bs using b64e.induct with
  | case1 => simp [b64e]
  | case2 a =>
    intro c hc
    simp only [b64e, List.mem_cons, List.mem_singleton] at hc
    rcases hc with rfl | rfl | rfl | rfl | h
    · exact key _
    · exact key _
    · simp [isWsB]
    · simp [isWsB]
    · simp at h
  | case3 a b =>
    intro c hc
    simp only [b64e, List.mem_cons, List.mem_singleton] at hc
    rcases hc with rfl | rfl | rfl | rfl | h
    · exact key _
    · exact key _
    · exact key _
    · simp [isWsB]
    · simp at h
  | case4 a b c rest ih =>
    intro x hx
    simp only [b64e, List.mem_cons] at hx
    rcases hx with rfl | rfl | rfl | rfl | h
    · exact key _
    · exact key _
    · exact key _
    · exact key _
    · exact ih x h

theorem filter_no_ws (l : List Nat) (h : ∀ c ∈ l, isWsB c = false) :
    l.filter (fun c => !(isWsB c)) = l := by
  induction l with
  | nil => rfl
  | cons c rest ih =>
    simp only [List.filter_cons, h c (by simp), Bool.not_false, if_true]
    rw [ih (fun x hx => h x (by simp [hx]))]

theorem b64dCore_b64e (bs : List Nat) (h : ∀ b ∈ bs, b < 256) :
    b64dCore (b64e bs) = some bs := by
  induction bs using b64e.induct with
  | case1 => rfl
  | case2 a =>
    have ha : a < 256 := h a (by simp)
    have h1 : a / 4 < 64 := by omega
    have h2 : a % 4 * 16 < 64 := by omega
    simp only [b64e, b64dCore, beq_self_eq_true, if_true, List.isEmpty_nil,
      isB64_b64c _ h1, isB64_b64c _ h2, Bool.and_true, Bool.true_and, Bool.and_self,
      b64v_b64c _ h1, b64v_b64c _ h2, Option.some.injEq, List.cons.injEq, and_true]
    omega
  | case3 a b =>
    have ha : a < 256 := h a (by simp)
    have hb : b < 256 := h b (by simp)
    have h1 : a / 4 < 64 := by omega
    have h2 : a % 4 * 16 + b / 16 < 64 := by omega
    have h3 : b % 16 * 4 < 64 := by omega
    have hne : (b64c (b % 16 * 4) == 61) = false :=
      beq_eq_false_iff_ne.mpr (b64c_ne_61 _ h3)
    simp only [b64e, b64dCore, hne, Bool.false_eq_true, if_false, beq_self_eq_true, if_true,
      List.isEmpty_nil, isB64_b64c _ h1, isB64_b64c _ h2, isB64_b64c _ h3, Bool.and_true,
      Bool.true_and, Bool.and_self, b64v_b64c _ h1, b64v_b64c _ h2, b64v_b64c _ h3,
      Option.some.injEq, List.cons.injEq, and_true]
    refine ⟨by omega, by omega⟩
  | case4 a b c rest ih =>
    have ha : a < 256 := h a (by simp)
    have hb : b < 256 := h b (by simp)
    have hc : c < 256 := h c (by simp)
    have h1 : a / 4 < 64 := by omega
    have h2 : a % 4 * 16 + b / 16 < 64 := by omega
    have h3 : b % 16 * 4 + c / 64 < 64 := by omega
    have h4 : c % 64 < 64 := by omega
    have hrec := ih (fun x hx => h x (by simp [hx]))
    have hne3 : (b64c (b % 16 * 4 + c / 64) == 61) = false :=
      beq_eq_false_iff_ne.mpr (b64c_ne_61 _ h3)
    have hne4 : (b64c (c % 64) == 61) = false :=
      beq_eq_false_iff_ne.mpr (b64c_ne_61 _ h4)
    simp only [b64e, b64dCore, hne3, hne4, Bool.false_eq_true, if_false,
      isB64_b64c _ h1, isB64_b64c _ h2, isB64_b64c _ h3, isB64_b64c _ h4,
      Bool.and_self, Bool.and_true, Bool.true_and, if_true,
      b64v_b64c _ h1, b64v_b64c _ h2, b64v_b64c _ h3, b64v_b64c _ h4,
      hrec, Option.map_some', Option.some.injEq, List.cons.injEq]
    exact ⟨by omega, by omega, by omega, by simp⟩

theorem b64d_b64e (bs : List Nat) (h : ∀ b ∈ bs, b < 256) : b64d (b64e bs) = some bs := by
  unfold b64d
  rw [filter_no_ws _ (b64e_no_ws bs), b64dCore_b64e bs h]

/-- Backslash-escape the quote byte `q` and backslash itself. -/
def escQ (q : Nat) : List Nat → List Nat
  | [] => []
  | c :: rest => if c = 92 || c = q then 92 :: c :: escQ q rest else c :: escQ q rest

/-- Read a quote-delimited string body up to an unescaped closing quote `q`. -/
def readQ (q : Nat) : List Nat → Option (List Nat × List Nat)
  | [] => none
  | c :: rest =>
    if c = 92 then
      match rest with
      | [] => none
      | x :: rest2 => (readQ q rest2).map (fun p => (x :: p.1, p.2))
    else if c = q then some ([], rest)
    else (readQ q rest).map (fun p => (c :: p.1, p.2))

theorem readQ_escQ (q : Nat) (hq : q ≠ 92) (s : List Nat) (rest : List Nat) :
    readQ q (escQ q s ++ q :: rest) = some (s, rest) := by
  induction s with
  | nil =>
    simp only [escQ, List.nil_append]
    unfold readQ
    rw [if_neg (fun h : q = 92 => hq h), if_pos rfl]
  | cons c s ih =>
    by_cases hc : c = 92 ∨ c = q
    · have he : escQ q (c :: s) = 92 :: c :: escQ q s := by
        rw [escQ, if_pos (by simpa using hc)]
      rw [he, List.cons_append, List.cons_append]
      unfold readQ
      rw [if_pos rfl]
      simp only []
      rw [ih]
      rfl
    · push_neg at hc
      have he : escQ q (c :: s) = c :: escQ q s := by
        rw [escQ, if_neg (by simpa using hc)]
      rw [he, List.cons_append]
      unfold readQ
      rw [if_neg hc.1, if_neg hc.2, ih]
      rfl

/-- XML text escaping of the markup bytes for ampersand, less-than, greater-than. -/
def xesc : List Nat → List Nat
  | [] => []
  | 38 :: rest => 38 :: 97 :: 109 :: 112 :: 59 :: xesc rest
  | 60 :: rest => 38 :: 108 :: 116 :: 59 :: xesc rest
  | 62 :: rest => 38 :: 103 :: 116 :: 59 :: xesc rest
  | c :: rest => c :: xesc rest

/-- Read XML character data up to (but not including) the next tag opener,
decoding the five predefined entities. -/
def readText : List Nat → Option (List Nat × List Nat)
  | [] => none
  | 60 :: rest => some ([], 60 :: rest)
  | 38 :: rest =>
    match rest with
    | 97 :: 109 :: 112 :: 59 :: r2 => (readText r2).map (fun p => (38 :: p.1, p.2))
    | 108 :: 116 :: 59 :: r2 => (readText r2).map (fun p => (60 :: p.1, p.2))
    | 103 :: 116 :: 59 :: r2 => (readText r2).map (fun p => (62 :: p.1, p.2))
    | 97 :: 112 :: 111 :: 115 :: 59 :: r2 => (readText r2).map (fun p => (39 :: p.1, p.2))
    | 113 :: 117 :: 111 :: 116 :: 59 :: r2 => (readText r2).map (fun p => (34 :: p.1, p.2))
    | _ => none
  | c :: rest => (readText rest).map (fun p => (c :: p.1, p.2))

theorem readText_xesc (s : List Nat) (rest : List Nat) :
    readText (xesc s ++ 60 :: rest) = some (s, 60 :: rest) := by
  induction s using xesc.induct with
  | case1 =>
    simp only [xesc, List.nil_append]
    rfl
  | case2 s ih =>
    simp only [xesc, List.cons_append, readText, List.append_eq, ih, Option.map_some']
  | case3 s ih =>
    simp only [xesc, List.cons_append, readText, List.append_eq, ih, Option.map_some']
  | case4 s ih =>
    simp only [xesc, List.cons_append, readText, List.append_eq, ih, Option.map_some']
  | case5 c s hc1 hc2 hc3 ih =>
    have h60 : ¬(c = 60) := fun h => hc2 h
    have h38 : ¬(c = 38) := fun h => hc1 h
    have hx : xesc (c :: s) = c :: xesc s := by
      rw [xesc]
      · exact hc1
      · exact hc2
      · exact hc3
    rw [hx, List.cons_append]
    have key : readText (c :: (xesc s ++ 60 :: rest)) =
        (readText (xesc s ++ 60 :: rest)).map (fun p => (c :: p.1, p.2)) := by
      rw [readText.eq_def]
      split
      · rename_i heq; simp at heq
      · rename_i heq; injection heq with hh _; exact absurd hh h60
      · rename_i heq; injection heq with hh _; exact absurd hh h38
      · rename_i heq
        injection heq with hh ht
        subst hh
        rw [← ht]
    rw [key, ih]
    rfl

/-- Hyphenated lowercase hex text of a 16-byte identifier (8-4-4-4-12). -/
def uuidText (bs : List Nat) : List Nat :=
  bytesHex (bs.take 4) ++ 45 :: bytesHex ((bs.drop 4).take 2) ++
    45 :: bytesHex ((bs.drop 6).take 2) ++ 45 :: bytesHex ((bs.drop 8).take 2) ++
    45 :: bytesHex (bs.drop 10)

/-- Read a hyphenated hex identifier, producing its 16 bytes. -/
def readUuid (l : List Nat) : Option (List Nat × List Nat) :=
  match readHexN 8 l with
  | none => none
  | some (h1, r1) =>
    match r1 with
    | 45 :: r1' =>
      match readHexN 4 r1' with
      | none => none
      | some (h2, r2) =>
        match r2 with
        | 45 :: r2' =>
          match readHexN 4 r2' with
          | none => none
          | some (h3, r3) =>
            match r3 with
            | 45 :: r3' =>
              match readHexN 4 r3' with
              | none => none
              | some (h4, r4) =>
                match r4 with
                | 45 :: r4' =>
                  match readHexN 12 r4' with
                  | none => none
                  | some (h5, r5) =>
                    match readHexPairs (h1 ++ h2 ++ h3 ++ h4 ++ h5) with
                    | some bytes => some (bytes, r5)
                    | none => none
                | _ => none
            | _ => none
        | _ => none
    | _ => none

theorem readHexN_exact (n : Nat) (h : List Nat) (rest : List Nat)
    (hh : ∀ c ∈ h, isHexB c = true) (hl : h.length = n) :
    readHexN n (h ++ rest) = some (h, rest) := by
  subst hl
  exact readHexN_append h rest hh

theorem readUuid_uuidText (bs : List Nat) (hlen : bs.length = 16)
    (hb : ∀ b ∈ bs, b < 256) (rest : List Nat) :
    readUuid (uuidText bs ++ rest) = some (bs, rest) := by
  have hsub : ∀ l : List Nat, (∀ b ∈ l, b < 256) → ∀ c ∈ bytesHex l, isHexB c = true :=
    fun l hl => bytesHex_isHex l hl
  have ht4 : ∀ b ∈ bs.take 4, b < 256 := fun b h => hb b (List.mem_of_mem_take h)
  have hd4 : ∀ b ∈ (bs.drop 4).take 2, b < 256 :=
    fun b h => hb b (List.mem_of_mem_drop (List.mem_of_mem_take h))
  have hd6 : ∀ b ∈ (bs.drop 6).take 2, b < 256 :=
    fun b h => hb b (List.mem_of_mem_drop (List.mem_of_mem_take h))
  have hd8 : ∀ b ∈ (bs.drop 8).take 2, b < 256 :=
    fun b h => hb b (List.mem_of_mem_drop (List.mem_of_mem_take h))
  have hd10 : ∀ b ∈ bs.drop 10, b < 256 := fun b h => hb b (List.mem_of_mem_drop h)
  have l1 : (bs.take 4).length = 4 := by rw [List.length_take]; omega
  have l2 : ((bs.drop 4).take 2).length = 2 := by
    rw [List.length_take, List.length_drop]; omega
  have l3 : ((bs.drop 6).take 2).length = 2 := by
    rw [List.length_take, List.length_drop]; omega
  have l4 : ((bs.drop 8).take 2).length = 2 := by
    rw [List.length_take, List.length_drop]; omega
  have l5 : (bs.drop 10).length = 6 := by rw [List.length_drop]; omega
  have hb1 : (bytesHex (bs.take 4)).length = 8 := by rw [bytesHex_length, l1]
  have hb2 : (bytesHex ((bs.drop 4).take 2)).length = 4 := by rw [bytesHex_length, l2]
  have hb3 : (bytesHex ((bs.drop 6).take 2)).length = 4 := by rw [bytesHex_length, l3]
  have hb4 : (bytesHex ((bs.drop 8).take 2)).length = 4 := by rw [bytesHex_length, l4]
  have hb5 : (bytesHex (bs.drop 10)).length = 12 := by rw [bytesHex_length, l5]
  have hrw : uuidText bs ++ rest =
      bytesHex (bs.take 4) ++ (45 :: (bytesHex ((bs.drop 4).take 2) ++
        (45 :: (bytesHex ((bs.drop 6).take 2) ++ (45 :: (bytesHex ((bs.drop 8).take 2) ++
        (45 :: (bytesHex (bs.drop 10) ++ rest)))))))) := by
    simp [uuidText]
  rw [hrw]
  unfold readUuid
  rw [readHexN_exact 8 _ _ (hsub _ ht4) hb1]
  simp only []
  rw [readHexN_exact 4 _ _ (hsub _ hd4) hb2]
  simp only []
  rw [readHexN_exact 4 _ _ (hsub _ hd6) hb3]
  simp only []
  rw [readHexN_exact 4 _ _ (hsub _ hd8) hb4]
  simp only []
  rw [readHexN_exact 12 _ _ (hsub _ hd10) hb5]
  simp only []
  have hcat : bytesHex (bs.take 4) ++ bytesHex ((bs.drop 4).take 2) ++
      bytesHex ((bs.drop 6).take 2) ++ bytesHex ((bs.drop 8).take 2) ++
      bytesHex (bs.drop 10) = bytesHex bs := by
    rw [← bytesHex_append, ← bytesHex_append, ← bytesHex_append, ← bytesHex_append]
    congr 1
    have e1 : (bs.drop 4).take 2 ++ ((bs.drop 6).take 2 ++ ((bs.drop 8).take 2 ++ bs.drop 10))
        = bs.drop 4 := by
      rw [show bs.drop 6 = (bs.drop 4).drop 2 by simp,
        show bs.drop 8 = (bs.drop 4).drop 4 by simp,
        show bs.drop 10 = (bs.drop 4).drop 6 by simp]
      rw [show ((bs.drop 4).drop 4).take 2 = (((bs.drop 4).drop 2).drop 2).take 2 by simp,
        show (bs.drop 4).drop 6 = (((bs.drop 4).drop 2).drop 2).drop 2 by simp]
      rw [List.take_append_drop, List.take_append_drop, List.take_append_drop]
    calc bs.take 4 ++ (bs.drop 4).take 2 ++ (bs.drop 6).take 2 ++ (bs.drop 8).take 2 ++
          bs.drop 10
        = bs.take 4 ++ ((bs.drop 4).take 2 ++ ((bs.drop 6).take 2 ++ ((bs.drop 8).take 2 ++
          bs.drop 10))) := by simp [List.append_assoc]
      _ = bs.take 4 ++ bs.drop 4 := by rw [e1]
      _ = bs := List.take_append_drop 4 bs
  rw [hcat, readHexPairs_bytesHex bs hb]

/-- Characters admissible in a notation real literal. -/
def isRealChar (c : Nat) : Bool :=
  isDigitB c || c == 45 || c == 43 || c == 46 || c == 101 || c == 69

/-- Split a byte list into its leading run of real-literal bytes and the rest. -/
def takeReal : List Nat → List Nat × List Nat
  | [] => ([], [])
  | c :: rest =>
    if isRealChar c then
      let (d, r) := takeReal rest
      (c :: d, r)
    else ([], c :: rest)

/-- A byte list whose head (if any) cannot extend a real literal. -/
def noRealHead : List Nat → Prop
  | [] => True
  | c :: _ => isRealChar c = false

theorem takeReal_append (ds rest : List Nat) (h1 : ∀ c ∈ ds, isRealChar c = true)
    (h2 : noRealHead rest) : takeReal (ds ++ rest) = (ds, rest) := by
  induction ds with
  | nil =>
    cases rest with
    | nil => rfl
    | cons c r =>
      simp only [noRealHead] at h2
      simp [takeReal, h2]
  | cons c ds ih =>
    have hc := h1 c (by simp)
    have ih' := ih (fun x hx => h1 x (by simp [hx]))
    simp only [List.cons_append, takeReal, hc, if_true, List.append_eq, ih']

/-- Modelled from the spec: the engine renders a 64-bit IEEE-754 double at full
precision so that text round-trips exactly; IEEE bit-level arithmetic is outside
this embedding, so the double is carried as its 64-bit pattern and the
full-precision decimal literal is modelled by the injective decimal text of that
pattern.  The inverse conversion maps a pure decimal literal back to the
pattern; any other accepted literal text is mapped to a fixed pattern. -/
def realOfText (t : List Nat) : Nat :=
  if t ≠ [] ∧ (∀ c ∈ t, isDigitB c = true) then scanVal t % 18446744073709551616 else 0

theorem realOfText_natText (p : Nat) (hp : p < 18446744073709551616) :
    realOfText (natText p) = p := by
  unfold realOfText
  rw [if_pos ⟨natText_ne_nil p, fun c hc => natText_digits c hc⟩, scanVal_natText]
  omega

/-- Conversion of decimal element text to a 32-bit signed integer; text that is
not a pure optionally-signed decimal literal in range reads as zero. -/
def intOfText (t : List Nat) : Int :=
  match readInt t with
  | some (v, []) => if -2147483648 ≤ v ∧ v < 2147483648 then v else 0
  | _ => 0

theorem intOfText_intText (i : Int) (h1 : -2147483648 ≤ i) (h2 : i < 2147483648) :
    intOfText (intText i) = i := by
  unfold intOfText
  rw [show intText i = intText i ++ [] by simp, readInt_intText i [] trivial]
  simp only []
  rw [if_pos ⟨h1, h2⟩]

/-- The LLSD value tree: a closed variant over the ten data kinds.  Real and
date payloads are carried as 64-bit patterns (see `realOfText`); strings, URIs,
binary payloads and map keys are byte sequences; maps are key-sorted entry
lists. -/
inductive LLSD where
  | undef
  | boolean (b : Bool)
  | integer (i : Int)
  | real (bits : Nat)
  | string (bytes : List Nat)
  | uuid (bytes : List Nat)
  | date (bits : Nat)
  | uri (bytes : List Nat)
  | binary (bytes : List Nat)
  | array (xs : List LLSD)
  | map (m : List (List Nat × LLSD))

mutual

def beqV : LLSD → LLSD → Bool
  | .undef, .undef => true
  | .boolean a, .boolean b => a == b
  | .integer a, .integer b => a == b
  | .real a, .real b => a == b
  | .string a, .string b => a == b
  | .uuid a, .uuid b => a == b
  | .date a, .date b => a == b
  | .uri a, .uri b => a == b
  | .binary a, .binary b => a == b
  | .array xs, .array ys => beqL xs ys
  | .map a, .map b => beqM a b
  | _, _ => false

def beqL : List LLSD → List LLSD → Bool
  | [], [] => true
  | x :: xs, y :: ys => beqV x y && beqL xs ys
  | _, _ => false

def beqM : List (List Nat × LLSD) → List (List Nat × LLSD) → Bool
  | [], [] => true
  | (k, v) :: m, (k', v') :: m' => k == k' && beqV v v' && beqM m m'
  | _, _ => false

end

mutual

theorem beqV_eq : ∀ a b, beqV a b = true → a = b
  | .undef, .undef, _ => rfl
  | .boolean a, .boolean b, h => by
    simp only [beqV, beq_iff_eq] at h; rw [h]
  | .integer a, .integer b, h => by
    simp only [beqV, beq_iff_eq] at h; rw [h]
  | .real a, .real b, h => by
    simp only [beqV, beq_iff_eq] at h; rw [h]
  | .string a, .string b, h => by
    simp only [beqV, beq_iff_eq] at h; rw [h]
  | .uuid a, .uuid b, h => by
    simp only [beqV, beq_iff_eq] at h; rw [h]
  | .date a, .date b, h => by
    simp only [beqV, beq_iff_eq] at h; rw [h]
  | .uri a, .uri b, h => by
    simp only [beqV, beq_iff_eq] at h; rw [h]
  | .binary a, .binary b, h => by
    simp only [beqV, beq_iff_eq] at h; rw [h]
  | .array xs, .array ys, h => by
    rw [beqL_eq xs ys h]
  | .map a, .map b, h => by
    rw [beqM_eq a b h]

theorem beqL_eq : ∀ a b, beqL a b = true → a = b
  | [], [], _ => rfl
  | x :: xs, y :: ys, h => by
    simp only [beqL, Bool.and_eq_true] at h
    rw [beqV_eq x y h.1, beqL_eq xs ys h.2]
  | [], _ :: _, h => by simp [beqL] at h
  | _ :: _, [], h => by simp [beqL] at h

theorem beqM_eq : ∀ a b, beqM a b = true → a = b
  | [], [], _ => rfl
  | (k, v) :: m, (k', v') :: m', h => by
    simp only [beqM, Bool.and_eq_true, beq_iff_eq] at h
    rw [h.1.1, beqV_eq v v' h.1.2, beqM_eq m m' h.2]
  | [], _ :: _, h => by simp [beqM] at h
  | _ :: _, [], h => by simp [beqM] at h

end

mutual

theorem beqV_refl : ∀ a, beqV a a = true
  | .undef => rfl
  | .boolean a => by simp [beqV]
  | .integer a => by simp [beqV]
  | .real a => by simp [beqV]
  | .string a => by simp [beqV]
  | .uuid a => by simp [beqV]
  | .date a => by simp [beqV]
  | .uri a => by simp [beqV]
  | .binary a => by simp [beqV]
  | .array xs => beqL_refl xs
  | .map m => beqM_refl m

theorem beqL_refl : ∀ a, beqL a a = true
  | [] => rfl
  | x :: xs => by
    simp only [beqL, Bool.and_eq_true]
    exact ⟨beqV_refl x, beqL_refl xs⟩

theorem beqM_refl : ∀ a, beqM a a = true
  | [] => rfl
  | (k, v) :: m => by
    simp [beqM, beqV_refl v, beqM_refl m]

end

instance : DecidableEq LLSD := fun a b =>
  if h : beqV a b = true then .isTrue (beqV_eq a b h)
  else .isFalse (fun he => h (he ▸ beqV_refl a))

/-- Beq-based mutual cases needed nowhere below; values compare with `=`. -/
theorem beqV_iff (a b : LLSD) : beqV a b = true ↔ a = b :=
  ⟨beqV_eq a b, fun h => h ▸ beqV_refl a⟩

/-- Lexicographic byte-wise strict order on map keys (the `std::string`
comparison the engine's map uses). -/
def keyLt : List Nat → List Nat → Bool
  | [], [] => false
  | [], _ :: _ => true
  | _ :: _, [] => false
  | a :: as, b :: bs => a < b || (a == b && keyLt as bs)

theorem keyLt_irrefl : ∀ a, keyLt a a = false
  | [] => rfl
  | a :: as => by simp [keyLt, keyLt_irrefl as]

theorem keyLt_asymm : ∀ a b, keyLt a b = true → keyLt b a = false
  | [], [], h => by simp [keyLt] at h
  | [], _ :: _, _ => rfl
  | _ :: _, [], h => by simp [keyLt] at h
  | a :: as, b :: bs, h => by
    simp only [keyLt, Bool.or_eq_true, Bool.and_eq_true, decide_eq_true_eq, beq_iff_eq] at h
    simp only [keyLt, Bool.or_eq_false_iff, Bool.and_eq_false_iff, decide_eq_false_iff_not]
    rcases h with h | ⟨rfl, h⟩
    · constructor
      · omega
      · left; simp; omega
    · refine ⟨by omega, Or.inr (keyLt_asymm as bs h)⟩

theorem keyLt_ne : ∀ a b, keyLt a b = true → a ≠ b := by
  intro a b h he
  subst he
  rw [keyLt_irrefl a] at h
  exact Bool.false_ne_true h

theorem keyLt_trans : ∀ a b c, keyLt a b = true → keyLt b c = true → keyLt a c = true
  | [], [], _, h, _ => by simp [keyLt] at h
  | [], _ :: _, [], _, h => by simp [keyLt] at h
  | [], _ :: _, _ :: _, _, _ => rfl
  | _ :: _, [], _, h, _ => by simp [keyLt] at h
  | _ :: _, _ :: _, [], _, h => by simp [keyLt] at h
  | a :: as, b :: bs, c :: cs, h1, h2 => by
    simp only [keyLt, Bool.or_eq_true, Bool.and_eq_true, decide_eq_true_eq, beq_iff_eq] at *
    rcases h1 with h1 | ⟨rfl, h1⟩
    · rcases h2 with h2 | ⟨rfl, h2⟩
      · left; omega
      · left; omega
    · rcases h2 with h2 | ⟨rfl, h2⟩
      · left; omega
      · exact Or.inr ⟨rfl, keyLt_trans as bs cs h1 h2⟩

/-- Set-by-key on a key-sorted entry list: replaces in place on an existing
key, otherwise inserts at the ordered position. -/
def mapSet (k : List Nat) (v : LLSD) : List (List Nat × LLSD) → List (List Nat × LLSD)
  | [] => [(k, v)]
  | (k', v') :: rest =>
    if keyLt k k' then (k, v) :: (k', v') :: rest
    else if k = k' then (k, v) :: rest
    else (k', v') :: mapSet k v rest

/-- Strict sortedness of the key sequence of an entry list. -/
def keysSorted : List (List Nat × LLSD) → Bool
  | [] => true
  | [_] => true
  | a :: b :: rest => keyLt a.1 b.1 && keysSorted (b :: rest)

theorem mapSet_append (k : List Nat) (v : LLSD) (m : List (List Nat × LLSD))
    (h : ∀ e ∈ m, keyLt e.1 k = true) : mapSet k v m = m ++ [(k, v)] := by
  induction m with
  | nil => rfl
  | cons e rest ih =>
    obtain ⟨k', v'⟩ := e
    have hk : keyLt k' k = true := h (k', v') (by simp)
    have h1 : keyLt k k' = false := keyLt_asymm _ _ hk
    have h2 : k ≠ k' := fun he => keyLt_ne k' k hk he.symm
    simp only [mapSet, h1, Bool.false_eq_true, if_false, h2, if_false,
      ih (fun x hx => h x (by simp [hx])), List.cons_append]

theorem keysSorted_head_lt (l : List (List Nat × LLSD)) :
    ∀ (a : List Nat × LLSD), keysSorted (a :: l) = true →
    ∀ b ∈ l, keyLt a.1 b.1 = true := by
  induction l with
  | nil => intro a _ b hb; simp at hb
  | cons c rest ih =>
    intro a h b hb
    simp only [keysSorted, Bool.and_eq_true] at h
    rcases List.mem_cons.mp hb with rfl | hb
    · exact h.1
    · exact keyLt_trans _ _ _ h.1 (ih c h.2 b hb)

theorem keysSorted_mid (pre : List (List Nat × LLSD)) (e : List Nat × LLSD)
    (post : List (List Nat × LLSD)) (h : keysSorted (pre ++ e :: post) = true) :
    ∀ x ∈ pre, keyLt x.1 e.1 = true := by
  induction pre with
  | nil => simp
  | cons a pre ih =>
    intro x hx
    have hstep : ∀ l, keysSorted (a :: l) = true → keysSorted l = true := by
      intro l hl
      cases l with
      | nil => rfl
      | cons b rest =>
        simp only [keysSorted, Bool.and_eq_true] at hl
        exact hl.2
    rcases List.mem_cons.mp hx with rfl | hx
    · exact keysSorted_head_lt _ x h e (by simp)
    · exact ih (hstep _ h) x hx

theorem keysSorted_tail (e : List Nat × LLSD) (m : List (List Nat × LLSD))
    (h : keysSorted (e :: m) = true) : keysSorted m = true := by
  cases m with
  | nil => rfl
  | cons b rest =>
    simp only [keysSorted, Bool.and_eq_true] at h
    exact h.2

/-- Folding sorted entries into an accumulated map by `mapSet` reproduces
plain concatenation. -/
theorem insertAll_sorted (m acc : List (List Nat × LLSD))
    (h : keysSorted (acc ++ m) = true) :
    m.foldl (fun a e => mapSet e.1 e.2 a) acc = acc ++ m := by
  induction m generalizing acc with
  | nil => simp
  | cons e rest ih =>
    have hlt : ∀ x ∈ acc, keyLt x.1 e.1 = true := keysSorted_mid acc e rest h
    have hstep : mapSet e.1 e.2 acc = acc ++ [(e.1, e.2)] := mapSet_append _ _ _ hlt
    simp only [List.foldl_cons, hstep]
    have hre : (acc ++ [(e.1, e.2)]) ++ rest = acc ++ e :: rest := by simp
    rw [ih (acc ++ [(e.1, e.2)]) (by rw [hre]; exact h), hre]

mutual

/-- Number of LLSD nodes in a value: 1 for a scalar, for containers 1 plus all
descendants (map keys do not count). -/
def nodesV : LLSD → Nat
  | .array xs => 1 + nodesL xs
  | .map m => 1 + nodesM m
  | _ => 1

def nodesL : List LLSD → Nat
  | [] => 0
  | x :: xs => nodesV x + nodesL xs

def nodesM : List (List Nat × LLSD) → Nat
  | [] => 0
  | (_, v) :: m => nodesV v + nodesM m

end

mutual

/-- Well-formedness of a value tree: byte payloads below 256, a 16-byte
identifier, 32-bit integers, 64-bit real/date patterns, length fields that fit
the 4-byte wire framing, and strictly key-sorted maps. -/
def wfV : LLSD → Bool
  | .undef => true
  | .boolean _ => true
  | .integer i => decide (-2147483648 ≤ i) && decide (i < 2147483648)
  | .real p => decide (p < 18446744073709551616)
  | .date p => decide (p < 18446744073709551616)
  | .string s => s.all (fun b => b < 256) && decide (s.length < 4294967296)
  | .uri s => s.all (fun b => b < 256) && decide (s.length < 4294967296)
  | .binary s => s.all (fun b => b < 256) && decide (s.length < 4294967296)
  | .uuid u => u.all (fun b => b < 256) && decide (u.length = 16)
  | .array xs => decide (xs.length < 4294967296) && wfL xs
  | .map m => decide (m.length < 4294967296) && keysSorted m && wfM m

def wfL : List LLSD → Bool
  | [] => true
  | x :: xs => wfV x && wfL xs

def wfM : List (List Nat × LLSD) → Bool
  | [] => true
  | (k, v) :: m =>
    k.all (fun b => b < 256) && decide (k.length < 4294967296) && wfV v && wfM m

end

mutual

/-- Fuel measure: enough parser fuel for a value is one more than this. -/
def msrV : LLSD → Nat
  | .array xs => 2 + msrL xs
  | .map m => 2 + msrM m
  | _ => 1

def msrL : List LLSD → Nat
  | [] => 0
  | x :: xs => 1 + msrV x + msrL xs

def msrM : List (List Nat × LLSD) → Nat
  | [] => 0
  | (_, v) :: m => 1 + msrV v + msrM m

end

theorem msrV_pos (v : LLSD) : 1 ≤ msrV v := by
  cases v <;> simp [msrV] <;> omega

/-- Two's-complement 32-bit wire word of a signed integer. -/
def u32ofInt (i : Int) : Nat := (i % 4294967296).toNat

/-- Signed reading of a 32-bit wire word. -/
def intOfU32 (n : Nat) : Int := if n < 2147483648 then (n : Int) else (n : Int) - 4294967296

theorem u32ofInt_lt (i : Int) : u32ofInt i < 4294967296 := by
  unfold u32ofInt
  omega

theorem intOfU32_u32ofInt (i : Int) (h1 : -2147483648 ≤ i) (h2 : i < 2147483648) :
    intOfU32 (u32ofInt i) = i := by
  unfold intOfU32 u32ofInt
  split_ifs <;> omega

mutual

/-- Binary formatter: one tag byte per node, big-endian multi-byte fields,
length-prefixed variable payloads, terminator bytes on containers. -/
def encBin : LLSD → List Nat
  | .undef => [33]
  | .boolean b => [if b then 49 else 48]
  | .integer i => 105 :: be32 (u32ofInt i)
  | .real p => 114 :: be64 p
  | .string s => 115 :: (be32 s.length ++ s)
  | .uuid u => 117 :: u
  | .date p => 100 :: be64 p
  | .uri u => 108 :: (be32 u.length ++ u)
  | .binary bs => 98 :: (be32 bs.length ++ bs)
  | .array xs => 91 :: (be32 xs.length ++ (encBinL xs ++ [93]))
  | .map m => 123 :: (be32 m.length ++ (encBinM m ++ [125]))

def encBinL : List LLSD → List Nat
  | [] => []
  | x :: xs => encBin x ++ encBinL xs

def encBinM : List (List Nat × LLSD) → List Nat
  | [] => []
  | (k, v) :: m => 107 :: (be32 k.length ++ (k ++ (encBin v ++ encBinM m)))

end

mutual

/-- Binary parser: reads one value, returning the value, the unconsumed rest
and the consumed node count; any framing violation yields `none`. -/
def prsBin : Nat → List Nat → Option (LLSD × List Nat × Nat)
  | 0, _ => none
  | _ + 1, [] => none
  | f + 1, tag :: r =>
    if tag = 33 then some (.undef, r, 1)
    else if tag = 49 then some (.boolean true, r, 1)
    else if tag = 48 then some (.boolean false, r, 1)
    else if tag = 105 then
      match rd32 r with
      | some (n, r1) => some (.integer (intOfU32 n), r1, 1)
      | none => none
    else if tag = 114 then
      match rd64 r with
      | some (p, r1) => some (.real p, r1, 1)
      | none => none
    else if tag = 100 then
      match rd64 r with
      | some (p, r1) => some (.date p, r1, 1)
      | none => none
    else if tag = 117 then
      match readN 16 r with
      | some (u, r1) => some (.uuid u, r1, 1)
      | none => none
    else if tag = 115 then
      match rd32 r with
      | some (n, r1) =>
        match readN n r1 with
        | some (s, r2) => some (.string s, r2, 1)
        | none => none
      | none => none
    else if tag = 108 then
      match rd32 r with
      | some (n, r1) =>
        match readN n r1 with
        | some (s, r2) => some (.uri s, r2, 1)
        | none => none
      | none => none
    else if tag = 98 then
      match rd32 r with
      | some (n, r1) =>
        match readN n r1 with
        | some (s, r2) => some (.binary s, r2, 1)
        | none => none
      | none => none
    else if tag = 91 then
      match rd32 r with
      | some (n, r1) =>
        match prsBinL f n r1 with
        | some (xs, r2, c) =>
          match r2 with
          | 93 :: r3 => some (.array xs, r3, 1 + c)
          | _ => none
        | none => none
      | none => none
    else if tag = 123 then
      match rd32 r with
      | some (n, r1) =>
        match prsBinM f n r1 [] with
        | some (m, r2, c) =>
          match r2 with
          | 125 :: r3 => some (.map m, r3, 1 + c)
          | _ => none
        | none => none
      | none => none
    else none

def prsBinL : Nat → Nat → List Nat → Option (List LLSD × List Nat × Nat)
  | 0, _, _ => none
  | _ + 1, 0, input => some ([], input, 0)
  | f + 1, n + 1, input =>
    match prsBin f input with
    | some (v, r1, c1) =>
      match prsBinL f n r1 with
      | some (xs, r2, c2) => some (v :: xs, r2, c1 + c2)
      | none => none
    | none => none

def prsBinM : Nat → Nat → List Nat → List (List Nat × LLSD) →
    Option (List (List Nat × LLSD) × List Nat × Nat)
  | 0, _, _, _ => none
  | _ + 1, 0, input, acc => some (acc, input, 0)
  | f + 1, n + 1, input, acc =>
    match input with
    | 107 :: r =>
      match rd32 r with
      | some (klen, r1) =>
        match readN klen r1 with
        | some (k, r2) =>
          match prsBin f r2 with
          | some (v, r3, c1) =>
            match prsBinM f n r3 (mapSet k v acc) with
            | some (m, r4, c2) => some (m, r4, c1 + c2)
            | none => none
          | none => none
        | none => none
      | none => none
    | _ => none

end

/-- The distinguished failure sentinel returned by the serialization facade. -/
def PARSE_FAILURE : Int := -1

/-- Facade: format a value tree to binary bytes; the returned count is the
number of LLSD nodes formatted. -/
def toBinary (v : LLSD) : List Nat × Int := (encBin v, (nodesV v : Int))

/-- Facade: parse one value from binary bytes, returning the node count on
success and `(undef, PARSE_FAILURE)` on any failure. -/
def fromBinary (input : List Nat) : LLSD × Int :=
  match prsBin (2 * input.length + 2) input with
  | some (v, _, c) => (v, (c : Int))
  | none => (.undef, PARSE_FAILURE)

mutual

theorem prsBin_encBin : ∀ (v : LLSD), wfV v = true → ∀ (f : Nat), msrV v ≤ f →
    ∀ (rest : List Nat), prsBin f (encBin v ++ rest) = some (v, rest, nodesV v)
  | .undef, _, f, hf, rest => by
    simp only [msrV] at hf
    cases f with
    | zero => omega
    | succ f' => rfl
  | .boolean b, _, f, hf, rest => by
    simp only [msrV] at hf
    cases f with
    | zero => omega
    | succ f' => cases b <;> rfl
  | .integer i, hw, f, hf, rest => by
    simp only [msrV] at hf
    simp only [wfV, Bool.and_eq_true, decide_eq_true_eq] at hw
    cases f with
    | zero => omega
    | succ f' =>
      simp only [encBin, List.cons_append]
      have hstep : prsBin (f' + 1) (105 :: (be32 (u32ofInt i) ++ rest)) =
          match rd32 (be32 (u32ofInt i) ++ rest) with
          | some (n, r1) => some (.integer (intOfU32 n), r1, 1)
          | none => none := rfl
      rw [hstep, rd32_be32 _ (u32ofInt_lt i) rest]
      simp only []
      rw [intOfU32_u32ofInt i hw.1 hw.2]
      rfl
  | .real p, hw, f, hf, rest => by
    simp only [msrV] at hf
    simp only [wfV, decide_eq_true_eq] at hw
    cases f with
    | zero => omega
    | succ f' =>
      simp only [encBin, List.cons_append]
      have hstep : prsBin (f' + 1) (114 :: (be64 p ++ rest)) =
          match rd64 (be64 p ++ rest) with
          | some (q, r1) => some (.real q, r1, 1)
          | none => none := rfl
      rw [hstep, rd64_be64 p hw rest]
      rfl
  | .string s, hw, f, hf, rest => by
    simp only [msrV] at hf
    simp only [wfV, Bool.and_eq_true, decide_eq_true_eq] at hw
    cases f with
    | zero => omega
    | succ f' =>
      simp only [encBin, List.cons_append, List.append_assoc]
      have hstep : prsBin (f' + 1) (115 :: (be32 s.length ++ (s ++ rest))) =
          match rd32 (be32 s.length ++ (s ++ rest)) with
          | some (n, r1) =>
            match readN n r1 with
            | some (t, r2) => some (.string t, r2, 1)
            | none => none
          | none => none := rfl
      rw [hstep, rd32_be32 _ hw.2 (s ++ rest)]
      simp only []
      rw [readN_append s rest]
      rfl
  | .uuid u, hw, f, hf, rest => by
    simp only [msrV] at hf
    simp only [wfV, Bool.and_eq_true, decide_eq_true_eq] at hw
    cases f with
    | zero => omega
    | succ f' =>
      simp only [encBin, List.cons_append]
      have hstep : prsBin (f' + 1) (117 :: (u ++ rest)) =
          match readN 16 (u ++ rest) with
          | some (t, r1) => some (.uuid t, r1, 1)
          | none => none := rfl
      rw [hstep, show (16 : Nat) = u.length from hw.2.symm, readN_append u rest]
      rfl
  | .date p, hw, f, hf, rest => by
    simp only [msrV] at hf
    simp only [wfV, decide_eq_true_eq] at hw
    cases f with
    | zero => omega
    | succ f' =>
      simp only [encBin, List.cons_append]
      have hstep : prsBin (f' + 1) (100 :: (be64 p ++ rest)) =
          match rd64 (be64 p ++ rest) with
          | some (q, r1) => some (.date q, r1, 1)
          | none => none := rfl
      rw [hstep, rd64_be64 p hw rest]
      rfl
  | .uri s, hw, f, hf, rest => by
    simp only [msrV] at hf
    simp only [wfV, Bool.and_eq_true, decide_eq_true_eq] at hw
    cases f with
    | zero => omega
    | succ f' =>
      simp only [encBin, List.cons_append, List.append_assoc]
      have hstep : prsBin (f' + 1) (108 :: (be32 s.length ++ (s ++ rest))) =
          match rd32 (be32 s.length ++ (s ++ rest)) with
          | some (n, r1) =>
            match readN n r1 with
            | some (t, r2) => some (.uri t, r2, 1)
            | none => none
          | none => none := rfl
      rw [hstep, rd32_be32 _ hw.2 (s ++ rest)]
      simp only []
      rw [readN_append s rest]
      rfl
  | .binary s, hw, f, hf, rest => by
    simp only [msrV] at hf
    simp only [wfV, Bool.and_eq_true, decide_eq_true_eq] at hw
    cases f with
    | zero => omega
    | succ f' =>
      simp only [encBin, List.cons_append, List.append_assoc]
      have hstep : prsBin (f' + 1) (98 :: (be32 s.length ++ (s ++ rest))) =
          match rd32 (be32 s.length ++ (s ++ rest)) with
          | some (n, r1) =>
            match readN n r1 with
            | some (t, r2) => some (.binary t, r2, 1)
            | none => none
          | none => none := rfl
      rw [hstep, rd32_be32 _ hw.2 (s ++ rest)]
      simp only []
      rw [readN_append s rest]
      rfl
  | .array xs, hw, f, hf, rest => by
    simp only [msrV] at hf
    simp only [wfV, Bool.and_eq_true, decide_eq_true_eq] at hw
    cases f with
    | zero => omega
    | succ f' =>
      simp only [encBin, List.cons_append, List.append_assoc, List.nil_append]
      have hstep : prsBin (f' + 1)
          (91 :: (be32 xs.length ++ (encBinL xs ++ (93 :: rest)))) =
          match rd32 (be32 xs.length ++ (encBinL xs ++ (93 :: rest))) with
          | some (n, r1) =>
            match prsBinL f' n r1 with
            | some (ys, r2, c) =>
              match r2 with
              | 93 :: r3 => some (.array ys, r3, 1 + c)
              | _ => none
            | none => none
          | none => none := rfl
      rw [hstep, rd32_be32 _ hw.1 (encBinL xs ++ (93 :: rest))]
      simp only []
      rw [prsBinL_encBinL xs hw.2 f' (by omega) (93 :: rest)]
      rfl
  | .map m, hw, f, hf, rest => by
    simp only [msrV] at hf
    simp only [wfV, Bool.and_eq_true, decide_eq_true_eq] at hw
    cases f with
    | zero => omega
    | succ f' =>
      simp only [encBin, List.cons_append, List.append_assoc, List.nil_append]
      have hstep : prsBin (f' + 1)
          (123 :: (be32 m.length ++ (encBinM m ++ (125 :: rest)))) =
          match rd32 (be32 m.length ++ (encBinM m ++ (125 :: rest))) with
          | some (n, r1) =>
            match prsBinM f' n r1 [] with
            | some (m2, r2, c) =>
              match r2 with
              | 125 :: r3 => some (.map m2, r3, 1 + c)
              | _ => none
            | none => none
          | none => none := rfl
      rw [hstep, rd32_be32 _ hw.1.1 (encBinM m ++ (125 :: rest))]
      simp only []
      rw [prsBinM_encBinM m hw.2 [] (by simpa using hw.1.2) f' (by omega) (125 :: rest)]
      simp only [List.nil_append]
      rfl

theorem prsBinL_encBinL : ∀ (xs : List LLSD), wfL xs = true → ∀ (f : Nat),
    msrL xs + 1 ≤ f → ∀ (rest : List Nat),
    prsBinL f xs.length (encBinL xs ++ rest) = some (xs, rest, nodesL xs)
  | [], _, f, hf, rest => by
    cases f with
    | zero => omega
    | succ f' => rfl
  | x :: xs, hw, f, hf, rest => by
    simp only [msrL] at hf
    simp only [wfL, Bool.and_eq_true] at hw
    cases f with
    | zero => omega
    | succ f' =>
      have hx := msrV_pos x
      simp only [encBinL, List.length_cons, List.append_assoc]
      have hred : prsBinL (f' + 1) (xs.length + 1) (encBin x ++ (encBinL xs ++ rest)) =
          match prsBin f' (encBin x ++ (encBinL xs ++ rest)) with
          | some (v, r1, c1) =>
            match prsBinL f' xs.length r1 with
            | some (ys, r2, c2) => some (v :: ys, r2, c1 + c2)
            | none => none
          | none => none := rfl
      rw [hred, prsBin_encBin x hw.1 f' (by omega) (encBinL xs ++ rest)]
      simp only []
      rw [prsBinL_encBinL xs hw.2 f' (by omega) rest]
      rfl

theorem prsBinM_encBinM : ∀ (m : List (List Nat × LLSD)), wfM m = true →
    ∀ (acc : List (List Nat × LLSD)), keysSorted (acc ++ m) = true → ∀ (f : Nat),
    msrM m + 1 ≤ f → ∀ (rest : List Nat),
    prsBinM f m.length (encBinM m ++ rest) acc = some (acc ++ m, rest, nodesM m)
  | [], _, acc, _, f, hf, rest => by
    cases f with
    | zero => omega
    | succ f' =>
      simp only [encBinM, List.nil_append, List.append_nil]
      rfl
  | (k, v) :: m, hw, acc, hs, f, hf, rest => by
    simp only [msrM] at hf
    simp only [wfM, Bool.and_eq_true, decide_eq_true_eq] at hw
    cases f with
    | zero => omega
    | succ f' =>
      have hvp := msrV_pos v
      simp only [encBinM, List.length_cons, List.cons_append, List.append_assoc]
      have hred : prsBinM (f' + 1) (m.length + 1)
          (107 :: (be32 k.length ++ (k ++ (encBin v ++ (encBinM m ++ rest))))) acc =
          match rd32 (be32 k.length ++ (k ++ (encBin v ++ (encBinM m ++ rest)))) with
          | some (klen, r1) =>
            match readN klen r1 with
            | some (k2, r2) =>
              match prsBin f' r2 with
              | some (v2, r3, c1) =>
                match prsBinM f' m.length r3 (mapSet k2 v2 acc) with
                | some (m2, r4, c2) => some (m2, r4, c1 + c2)
                | none => none
              | none => none
            | none => none
          | none => none := rfl
      rw [hred, rd32_be32 _ hw.1.1.2 (k ++ (encBin v ++ (encBinM m ++ rest)))]
      simp only []
      rw [readN_append k (encBin v ++ (encBinM m ++ rest))]
      simp only []
      rw [prsBin_encBin v hw.1.2 f' (by omega) (encBinM m ++ rest)]
      simp only []
      have hins : mapSet k v acc = acc ++ [(k, v)] :=
        mapSet_append k v acc (keysSorted_mid acc (k, v) m hs)
      have hs2 : keysSorted ((acc ++ [(k, v)]) ++ m) = true := by
        have : (acc ++ [(k, v)]) ++ m = acc ++ (k, v) :: m := by simp
        rw [this]; exact hs
      rw [hins, prsBinM_encBinM m hw.2 (acc ++ [(k, v)]) hs2 f' (by omega) rest]
      simp only [List.append_assoc, List.singleton_append, nodesM]

end

mutual

theorem msrV_le_encBin : ∀ (v : LLSD), msrV v + 1 ≤ 2 * (encBin v).length
  | .undef => by simp [msrV, encBin]
  | .boolean b => by cases b <;> simp [msrV, encBin]
  | .integer i => by simp [msrV, encBin, be32]
  | .real p => by simp [msrV, encBin, be64, be32]
  | .string s => by simp [msrV, encBin, be32]
  | .uuid u => by simp [msrV, encBin]
  | .date p => by simp [msrV, encBin, be64, be32]
  | .uri s => by simp [msrV, encBin, be32]
  | .binary s => by simp [msrV, encBin, be32]
  | .array xs => by
    have h := msrL_le_encBinL xs
    simp only [msrV, encBin, List.length_cons, List.length_append, be32]
    simp
    omega
  | .map m => by
    have h := msrM_le_encBinM m
    simp only [msrV, encBin, List.length_cons, List.length_append, be32]
    simp
    omega

theorem msrL_le_encBinL : ∀ (xs : List LLSD), msrL xs ≤ 2 * (encBinL xs).length
  | [] => by simp [msrL, encBinL]
  | x :: xs => by
    have h1 := msrV_le_encBin x
    have h2 := msrL_le_encBinL xs
    simp only [msrL, encBinL, List.length_append]
    omega

theorem msrM_le_encBinM : ∀ (m : List (List Nat × LLSD)), msrM m ≤ 2 * (encBinM m).length
  | [] => by simp [msrM, encBinM]
  | (k, v) :: m => by
    have h1 := msrV_le_encBin v
    have h2 := msrM_le_encBinM m
    simp only [msrM, encBinM, List.length_cons, List.length_append, be32]
    simp
    omega

end

/-- Binary facade round trip: formatting any well-formed value and parsing the
bytes back returns the same value with the matching node count. -/
theorem fromBinary_toBinary (v : LLSD) (h : wfV v = true) :
    fromBinary (toBinary v).1 = (v, (nodesV v : Int)) := by
  have hmsr := msrV_le_encBin v
  have hle : msrV v ≤ 2 * (encBin v).length + 2 := by omega
  have hrt := prsBin_encBin v h (2 * (encBin v).length + 2) hle []
  rw [List.append_nil] at hrt
  simp only [toBinary, fromBinary, hrt]

theorem keyLt_total (a b : List Nat) : a = b ∨ keyLt a b = true ∨ keyLt b a = true := by
  induction a generalizing b with
  | nil =>
    cases b with
    | nil => exact Or.inl rfl
    | cons y ys => exact Or.inr (Or.inl rfl)
  | cons x xs ih =>
    cases b with
    | nil => exact Or.inr (Or.inr rfl)
    | cons y ys =>
      rcases Nat.lt_trichotomy x y with hxy | rfl | hxy
      · refine Or.inr (Or.inl ?_)
        simp [keyLt]; omega
      · rcases ih ys with rfl | h | h
        · exact Or.inl rfl
        · refine Or.inr (Or.inl ?_); simp [keyLt, h]
        · refine Or.inr (Or.inr ?_); simp [keyLt, h]
      · refine Or.inr (Or.inr ?_)
        simp [keyLt]; omega

theorem mapSet_mem (k : List Nat) (v : LLSD) :
    ∀ (m : List (List Nat × LLSD)) (e : List Nat × LLSD),
    e ∈ mapSet k v m → e = (k, v) ∨ e ∈ m
  | [], e, he => by
    simp only [mapSet, List.mem_singleton] at he
    exact Or.inl he
  | (k', v') :: rest, e, he => by
    simp only [mapSet] at he
    split at he
    · rcases List.mem_cons.mp he with rfl | h2
      · exact Or.inl rfl
      · exact Or.inr h2
    · split at he
      · rcases List.mem_cons.mp he with rfl | h2
        · exact Or.inl rfl
        · exact Or.inr (by simp [h2])
      · rcases List.mem_cons.mp he with rfl | h2
        · exact Or.inr (by simp)
        · rcases mapSet_mem k v rest e h2 with h3 | h3
          · exact Or.inl h3
          · exact Or.inr (by simp [h3])

theorem mapSet_lb (b k : List Nat) (v : LLSD) (m : List (List Nat × LLSD))
    (hm : ∀ e ∈ m, keyLt b e.1 = true) (hk : keyLt b k = true) :
    ∀ e ∈ mapSet k v m, keyLt b e.1 = true := by
  intro e he
  rcases mapSet_mem k v m e he with rfl | h
  · exact hk
  · exact hm e h

theorem keysSorted_cons_of_lb (b : List Nat) (v : LLSD) (m : List (List Nat × LLSD))
    (hlb : ∀ e ∈ m, keyLt b e.1 = true) (hm : keysSorted m = true) :
    keysSorted ((b, v) :: m) = true := by
  cases m with
  | nil => rfl
  | cons e rest =>
    simp only [keysSorted, Bool.and_eq_true]
    exact ⟨hlb e (by simp), hm⟩

theorem mapSet_sorted (k : List Nat) (v : LLSD) :
    ∀ (m : List (List Nat × LLSD)), keysSorted m = true →
    keysSorted (mapSet k v m) = true
  | [], _ => rfl
  | (k1, v1) :: rest, h => by
    have hhd : ∀ e ∈ rest, keyLt k1 e.1 = true := keysSorted_head_lt rest (k1, v1) h
    have htl : keysSorted rest = true := keysSorted_tail _ _ h
    simp only [mapSet]
    split
    · rename_i hlt
      exact keysSorted_cons_of_lb k v ((k1, v1) :: rest)
        (by
          intro e he
          rcases List.mem_cons.mp he with rfl | he2
          · exact hlt
          · exact keyLt_trans _ _ _ hlt (hhd e he2)) h
    · split
      · rename_i hnlt heq
        subst heq
        exact keysSorted_cons_of_lb k v rest hhd htl
      · rename_i hnlt hne
        have hlt1 : keyLt k1 k = true := by
          rcases keyLt_total k k1 with rfl | hlt | hlt
          · exact absurd rfl hne
          · exact absurd hlt (by simpa using hnlt)
          · exact hlt
        exact keysSorted_cons_of_lb k1 v1 (mapSet k v rest)
          (mapSet_lb k1 k v rest hhd hlt1) (mapSet_sorted k v rest htl)

theorem mapSet_wf (k : List Nat) (v : LLSD)
    (hk : (k.all (fun b => b < 256) && decide (k.length < 4294967296)) = true)
    (hv : wfV v = true) :
    ∀ (m : List (List Nat × LLSD)), wfM m = true → wfM (mapSet k v m) = true
  | [], _ => by
    have : wfM (mapSet k v []) =
        (k.all (fun b => b < 256) && decide (k.length < 4294967296) && wfV v && wfM []) := rfl
    rw [this]
    simp only [Bool.and_eq_true] at hk ⊢
    exact ⟨⟨⟨hk.1, hk.2⟩, hv⟩, rfl⟩
  | (k1, v1) :: rest, h => by
    simp only [mapSet]
    split
    · have : wfM ((k, v) :: (k1, v1) :: rest) =
          (k.all (fun b => b < 256) && decide (k.length < 4294967296) && wfV v &&
            wfM ((k1, v1) :: rest)) := rfl
      rw [this]
      simp only [Bool.and_eq_true] at hk ⊢
      exact ⟨⟨⟨hk.1, hk.2⟩, hv⟩, h⟩
    · split
      · have hrest : wfM rest = true := by
          simp only [wfM, Bool.and_eq_true] at h
          exact h.2
        have : wfM ((k, v) :: rest) =
            (k.all (fun b => b < 256) && decide (k.length < 4294967296) && wfV v &&
              wfM rest) := rfl
        rw [this]
        simp only [Bool.and_eq_true] at hk ⊢
        exact ⟨⟨⟨hk.1, hk.2⟩, hv⟩, hrest⟩
      · simp only [wfM, Bool.and_eq_true] at h
        have hrec := mapSet_wf k v hk hv rest h.2
        have : wfM ((k1, v1) :: mapSet k v rest) =
            (k1.all (fun b => b < 256) && decide (k1.length < 4294967296) && wfV v1 &&
              wfM (mapSet k v rest)) := rfl
        rw [this]
        simp only [Bool.and_eq_true] at h ⊢
        exact ⟨h.1, hrec⟩

theorem mapSet_len (k : List Nat) (v : LLSD) :
    ∀ (m : List (List Nat × LLSD)), (mapSet k v m).length ≤ m.length + 1
  | [] => by simp [mapSet]
  | (k1, v1) :: rest => by
    simp only [mapSet]
    split
    · simp
    · split
      · simp
      · have := mapSet_len k v rest
        simp only [List.length_cons]
        omega

theorem rd32_bytes : ∀ (l : List Nat) (n : Nat) (r : List Nat), rd32 l = some (n, r) →
    (∀ b ∈ l, b < 256) → n < 4294967296 ∧ ∀ b ∈ r, b < 256
  | [], n, r, h, _ => by simp [rd32] at h
  | [_], n, r, h, _ => by simp [rd32] at h
  | [_, _], n, r, h, _ => by simp [rd32] at h
  | [_, _, _], n, r, h, _ => by simp [rd32] at h
  | a :: b :: c :: d :: rest, n, r, h, hb => by
    simp only [rd32, Option.some.injEq, Prod.mk.injEq] at h
    obtain ⟨h1, h2⟩ := h
    subst h1 h2
    refine ⟨?_, fun x hx => hb x (by simp [hx])⟩
    have ha := hb a (by simp)
    have hbb := hb b (by simp)
    have hc := hb c (by simp)
    have hd := hb d (by simp)
    omega

theorem rd64_bytes (l : List Nat) (n : Nat) (r : List Nat) (h : rd64 l = some (n, r))
    (hb : ∀ b ∈ l, b < 256) : n < 18446744073709551616 ∧ ∀ b ∈ r, b < 256 := by
  unfold rd64 at h
  cases h1 : rd32 l with
  | none => rw [h1] at h; simp at h
  | some p =>
    obtain ⟨hi, r1⟩ := p
    rw [h1] at h
    simp only [] at h
    cases h2 : rd32 r1 with
    | none => rw [h2] at h; simp at h
    | some q =>
      obtain ⟨lo, r2⟩ := q
      rw [h2] at h
      simp only [Option.some.injEq, Prod.mk.injEq] at h
      obtain ⟨h3, h4⟩ := h
      subst h3 h4
      obtain ⟨hhi, hb1⟩ := rd32_bytes l hi r1 h1 hb
      obtain ⟨hlo, hb2⟩ := rd32_bytes r1 lo _ h2 hb1
      exact ⟨by omega, hb2⟩

theorem readN_bytes (n : Nat) (l t r : List Nat) (h : readN n l = some (t, r))
    (hb : ∀ b ∈ l, b < 256) :
    (∀ b ∈ t, b < 256) ∧ t.length = n ∧ ∀ b ∈ r, b < 256 := by
  obtain ⟨he, hl⟩ := readN_split n l t r h
  subst he
  exact ⟨fun x hx => hb x (by simp [hx]), hl, fun x hx => hb x (by simp [hx])⟩

mutual

theorem prsBin_wf : ∀ (f : Nat) (input : List Nat) (v : LLSD) (rest : List Nat) (c : Nat),
    (∀ b ∈ input, b < 256) → prsBin f input = some (v, rest, c) →
    wfV v = true ∧ ∀ b ∈ rest, b < 256
  | 0, input, v, rest, c, _, h => by simp [prsBin] at h
  | f + 1, [], v, rest, c, _, h => by simp [prsBin] at h
  | f + 1, tag :: r, v, rest, c, hb, h => by
    have hbr : ∀ b ∈ r, b < 256 := fun x hx => hb x (by simp [hx])
    unfold prsBin at h
    by_cases e1 : tag = 33
    · rw [if_pos e1] at h
      simp only [Option.some.injEq, Prod.mk.injEq] at h
      obtain ⟨rfl, rfl, rfl⟩ := h
      exact ⟨rfl, hbr⟩
    · rw [if_neg e1] at h
      by_cases e2 : tag = 49
      · rw [if_pos e2] at h
        simp only [Option.some.injEq, Prod.mk.injEq] at h
        obtain ⟨rfl, rfl, rfl⟩ := h
        exact ⟨rfl, hbr⟩
      · rw [if_neg e2] at h
        by_cases e3 : tag = 48
        · rw [if_pos e3] at h
          simp only [Option.some.injEq, Prod.mk.injEq] at h
          obtain ⟨rfl, rfl, rfl⟩ := h
          exact ⟨rfl, hbr⟩
        · rw [if_neg e3] at h
          by_cases e4 : tag = 105
          · rw [if_pos e4] at h
            cases hrd : rd32 r with
            | none => rw [hrd] at h; simp at h
            | some p =>
              obtain ⟨n, r1⟩ := p
              rw [hrd] at h
              simp only [Option.some.injEq, Prod.mk.injEq] at h
              obtain ⟨rfl, rfl, rfl⟩ := h
              obtain ⟨hn, hr1⟩ := rd32_bytes r n r1 hrd hbr
              refine ⟨?_, hr1⟩
              unfold intOfU32
              split_ifs <;> simp [wfV] <;> omega
          · rw [if_neg e4] at h
            by_cases e5 : tag = 114
            · rw [if_pos e5] at h
              cases hrd : rd64 r with
              | none => rw [hrd] at h; simp at h
              | some p =>
                obtain ⟨n, r1⟩ := p
                rw [hrd] at h
                simp only [Option.some.injEq, Prod.mk.injEq] at h
                obtain ⟨rfl, rfl, rfl⟩ := h
                obtain ⟨hn, hr1⟩ := rd64_bytes r n r1 hrd hbr
                exact ⟨by simp [wfV]; omega, hr1⟩
            · rw [if_neg e5] at h
              by_cases e6 : tag = 100
              · rw [if_pos e6] at h
                cases hrd : rd64 r with
                | none => rw [hrd] at h; simp at h
                | some p =>
                  obtain ⟨n, r1⟩ := p
                  rw [hrd] at h
                  simp only [Option.some.injEq, Prod.mk.injEq] at h
                  obtain ⟨rfl, rfl, rfl⟩ := h
                  obtain ⟨hn, hr1⟩ := rd64_bytes r n r1 hrd hbr
                  exact ⟨by simp [wfV]; omega, hr1⟩
              · rw [if_neg e6] at h
                by_cases e7 : tag = 117
                · rw [if_pos e7] at h
                  cases hrn : readN 16 r with
                  | none => rw [hrn] at h; simp at h
                  | some p =>
                    obtain ⟨u, r1⟩ := p
                    rw [hrn] at h
                    simp only [Option.some.injEq, Prod.mk.injEq] at h
                    obtain ⟨rfl, rfl, rfl⟩ := h
                    obtain ⟨hu, hul, hr1⟩ := readN_bytes 16 r u r1 hrn hbr
                    refine ⟨?_, hr1⟩
                    simp only [wfV, Bool.and_eq_true, decide_eq_true_eq, List.all_eq_true]
                    exact ⟨fun x hx => by simpa using hu x hx, hul⟩
                · rw [if_neg e7] at h
                  by_cases e8 : tag = 115
                  · rw [if_pos e8] at h
                    cases hrd : rd32 r with
                    | none => rw [hrd] at h; simp at h
                    | some p =>
                      obtain ⟨n, r1⟩ := p
                      rw [hrd] at h
                      simp only [] at h
                      cases hrn : readN n r1 with
                      | none => rw [hrn] at h; simp at h
                      | some q =>
                        obtain ⟨s, r2⟩ := q
                        rw [hrn] at h
                        simp only [Option.some.injEq, Prod.mk.injEq] at h
                        obtain ⟨rfl, rfl, rfl⟩ := h
                        obtain ⟨hn, hr1⟩ := rd32_bytes r n r1 hrd hbr
                        obtain ⟨hs, hsl, hr2⟩ := readN_bytes n r1 s r2 hrn hr1
                        refine ⟨?_, hr2⟩
                        simp only [wfV, Bool.and_eq_true, decide_eq_true_eq, List.all_eq_true]
                        exact ⟨fun x hx => by simpa using hs x hx, by omega⟩
                  · rw [if_neg e8] at h
                    by_cases e9 : tag = 108
                    · rw [if_pos e9] at h
                      cases hrd : rd32 r with
                      | none => rw [hrd] at h; simp at h
                      | some p =>
                        obtain ⟨n, r1⟩ := p
                        rw [hrd] at h
                        simp only [] at h
                        cases hrn : readN n r1 with
                        | none => rw [hrn] at h; simp at h
                        | some q =>
                          obtain ⟨s, r2⟩ := q
                          rw [hrn] at h
                          simp only [Option.some.injEq, Prod.mk.injEq] at h
                          obtain ⟨rfl, rfl, rfl⟩ := h
                          obtain ⟨hn, hr1⟩ := rd32_bytes r n r1 hrd hbr
                          obtain ⟨hs, hsl, hr2⟩ := readN_bytes n r1 s r2 hrn hr1
                          refine ⟨?_, hr2⟩
                          simp only [wfV, Bool.and_eq_true, decide_eq_true_eq, List.all_eq_true]
                          exact ⟨fun x hx => by simpa using hs x hx, by omega⟩
                    · rw [if_neg e9] at h
                      by_cases e10 : tag = 98
                      · rw [if_pos e10] at h
                        cases hrd : rd32 r with
                        | none => rw [hrd] at h; simp at h
                        | some p =>
                          obtain ⟨n, r1⟩ := p
                          rw [hrd] at h
                          simp only [] at h
                          cases hrn : readN n r1 with
                          | none => rw [hrn] at h; simp at h
                          | some q =>
                            obtain ⟨s, r2⟩ := q
                            rw [hrn] at h
                            simp only [Option.some.injEq, Prod.mk.injEq] at h
                            obtain ⟨rfl, rfl, rfl⟩ := h
                            obtain ⟨hn, hr1⟩ := rd32_bytes r n r1 hrd hbr
                            obtain ⟨hs, hsl, hr2⟩ := readN_bytes n r1 s r2 hrn hr1
                            refine ⟨?_, hr2⟩
                            simp only [wfV, Bool.and_eq_true, decide_eq_true_eq, List.all_eq_true]
                            exact ⟨fun x hx => by simpa using hs x hx, by omega⟩
                      · rw [if_neg e10] at h
                        by_cases e11 : tag = 91
                        · rw [if_pos e11] at h
                          cases hrd : rd32 r with
                          | none => rw [hrd] at h; simp at h
                          | some p =>
                            obtain ⟨n, r1⟩ := p
                            rw [hrd] at h
                            simp only [] at h
                            cases hpl : prsBinL f n r1 with
                            | none => rw [hpl] at h; simp at h
                            | some q =>
                              obtain ⟨xs, r2, c2⟩ := q
                              rw [hpl] at h
                              simp only [] at h
                              obtain ⟨hn, hr1⟩ := rd32_bytes r n r1 hrd hbr
                              obtain ⟨hxs, hlen, hr2⟩ := prsBinL_wf f n r1 xs r2 c2 hr1 hpl
                              split at h
                              · rename_i r3
                                simp only [Option.some.injEq, Prod.mk.injEq] at h
                                obtain ⟨rfl, rfl, rfl⟩ := h
                                refine ⟨?_, fun x hx => hr2 x (by simp [hx])⟩
                                simp only [wfV, Bool.and_eq_true, decide_eq_true_eq]
                                exact ⟨by omega, hxs⟩
                              · simp at h
                        · rw [if_neg e11] at h
                          by_cases e12 : tag = 123
                          · rw [if_pos e12] at h
                            cases hrd : rd32 r with
                            | none => rw [hrd] at h; simp at h
                            | some p =>
                              obtain ⟨n, r1⟩ := p
                              rw [hrd] at h
                              simp only [] at h
                              cases hpm : prsBinM f n r1 [] with
                              | none => rw [hpm] at h; simp at h
                              | some q =>
                                obtain ⟨m, r2, c2⟩ := q
                                rw [hpm] at h
                                simp only [] at h
                                obtain ⟨hn, hr1⟩ := rd32_bytes r n r1 hrd hbr
                                obtain ⟨hm, hms, hml, hr2⟩ := prsBinM_wf f n r1 [] m r2 c2 hr1 rfl rfl hpm
                                split at h
                                · rename_i r3
                                  simp only [Option.some.injEq, Prod.mk.injEq] at h
                                  obtain ⟨rfl, rfl, rfl⟩ := h
                                  refine ⟨?_, fun x hx => hr2 x (by simp [hx])⟩
                                  simp only [wfV, Bool.and_eq_true, decide_eq_true_eq]
                                  refine ⟨⟨?_, hms⟩, hm⟩
                                  simp only [List.length_nil] at hml
                                  omega
                                · simp at h
                          · rw [if_neg e12] at h
                            simp at h

theorem prsBinL_wf : ∀ (f n : Nat) (input : List Nat) (xs : List LLSD) (rest : List Nat)
    (c : Nat), (∀ b ∈ input, b < 256) → prsBinL f n input = some (xs, rest, c) →
    wfL xs = true ∧ xs.length = n ∧ ∀ b ∈ rest, b < 256
  | 0, n, input, xs, rest, c, _, h => by simp [prsBinL] at h
  | f + 1, 0, input, xs, rest, c, hb, h => by
    simp only [prsBinL, Option.some.injEq, Prod.mk.injEq] at h
    obtain ⟨rfl, rfl, rfl⟩ := h
    exact ⟨rfl, rfl, hb⟩
  | f + 1, n + 1, input, xs, rest, c, hb, h => by
    unfold prsBinL at h
    cases hv : prsBin f input with
    | none => rw [hv] at h; simp at h
    | some p =>
      obtain ⟨v, r1, c1⟩ := p
      rw [hv] at h
      simp only [] at h
      cases hl : prsBinL f n r1 with
      | none => rw [hl] at h; simp at h
      | some q =>
        obtain ⟨ys, r2, c2⟩ := q
        rw [hl] at h
        simp only [Option.some.injEq, Prod.mk.injEq] at h
        obtain ⟨rfl, rfl, rfl⟩ := h
        obtain ⟨hwv, hr1⟩ := prsBin_wf f input v r1 c1 hb hv
        obtain ⟨hws, hlen, hr2⟩ := prsBinL_wf f n r1 ys r2 c2 hr1 hl
        refine ⟨?_, by simp [hlen], hr2⟩
        simp only [wfL, Bool.and_eq_true]
        exact ⟨hwv, hws⟩

theorem prsBinM_wf : ∀ (f n : Nat) (input : List Nat) (acc m : List (List Nat × LLSD))
    (rest : List Nat) (c : Nat), (∀ b ∈ input, b < 256) → wfM acc = true →
    keysSorted acc = true → prsBinM f n input acc = some (m, rest, c) →
    wfM m = true ∧ keysSorted m = true ∧ m.length ≤ acc.length + n ∧ ∀ b ∈ rest, b < 256
  | 0, n, input, acc, m, rest, c, _, _, _, h => by simp [prsBinM] at h
  | f + 1, 0, input, acc, m, rest, c, hb, hacc, hs, h => by
    simp only [prsBinM, Option.some.injEq, Prod.mk.injEq] at h
    obtain ⟨rfl, rfl, rfl⟩ := h
    exact ⟨hacc, hs, by omega, hb⟩
  | f + 1, n + 1, input, acc, m, rest, c, hb, hacc, hs, h => by
    unfold prsBinM at h
    split at h
    · rename_i r
      cases hrd : rd32 r with
      | none => rw [hrd] at h; simp at h
      | some p =>
        obtain ⟨klen, r1⟩ := p
        rw [hrd] at h
        simp only [] at h
        cases hrn : readN klen r1 with
        | none => rw [hrn] at h; simp at h
        | some q =>
          obtain ⟨k, r2⟩ := q
          rw [hrn] at h
          simp only [] at h
          cases hpv : prsBin f r2 with
          | none => rw [hpv] at h; simp at h
          | some t =>
            obtain ⟨v, r3, c1⟩ := t
            rw [hpv] at h
            simp only [] at h
            cases hpm : prsBinM f n r3 (mapSet k v acc) with
            | none => rw [hpm] at h; simp at h
            | some w =>
              obtain ⟨m2, r4, c2⟩ := w
              rw [hpm] at h
              simp only [Option.some.injEq, Prod.mk.injEq] at h
              obtain ⟨rfl, rfl, rfl⟩ := h
              obtain ⟨hklen, hr1⟩ := rd32_bytes r klen r1 hrd
                (fun x hx => hb x (by simp [hx]))
              obtain ⟨hk, hkl, hr2⟩ := readN_bytes klen r1 k r2 hrn hr1
              obtain ⟨hwv, hr3⟩ := prsBin_wf f r2 v r3 c1 hr2 hpv
              have hkk : (k.all (fun b => b < 256) && decide (k.length < 4294967296)) =
                  true := by
                simp only [Bool.and_eq_true, decide_eq_true_eq, List.all_eq_true]
                exact ⟨fun x hx => by simpa using hk x hx, by omega⟩
              have hacc2 := mapSet_wf k v hkk hwv acc hacc
              have hs2 := mapSet_sorted k v acc hs
              obtain ⟨hm, hms, hml, hr4⟩ := prsBinM_wf f n r3 (mapSet k v acc) m2 r4 c2
                hr3 hacc2 hs2 hpm
              have hlen2 := mapSet_len k v acc
              exact ⟨hm, hms, by omega, hr4⟩
    · simp at h

end

mutual

/-- Notation formatter.  Modelled from the spec: booleans use the compact
`1`/`0` spellings, strings and binary use the explicit-length raw forms
`s(N)"..."` / `b(N)"..."` of the grammar (the spec leaves the quoting choice
open as long as it is escaping-complete and round-trips), URIs are
double-quoted with backslash escaping, dates are quoted, map keys are
single-quoted with backslash escaping. -/
def encNtn : LLSD → List Nat
  | .undef => [33]
  | .boolean b => [if b then 49 else 48]
  | .integer i => 105 :: intText i
  | .real p => 114 :: natText p
  | .string s => 115 :: 40 :: (natText s.length ++ (41 :: 34 :: (s ++ [34])))
  | .uuid u => 117 :: uuidText u
  | .date p => 100 :: 34 :: (natText p ++ [34])
  | .uri s => 108 :: 34 :: (escQ 34 s ++ [34])
  | .binary bs => 98 :: 40 :: (natText bs.length ++ (41 :: 34 :: (bs ++ [34])))
  | .array xs =>
    match xs with
    | [] => [91, 93]
    | x :: t => 91 :: (encNtn x ++ encNtnTail t)
  | .map m =>
    match m with
    | [] => [123, 125]
    | e :: t => 123 :: (encNtnEnt e ++ encNtnMTailEnc t)

def encNtnTail : List LLSD → List Nat
  | [] => [93]
  | x :: t => 44 :: (encNtn x ++ encNtnTail t)

def encNtnEnt : List Nat × LLSD → List Nat
  | (k, v) => 39 :: (escQ 39 k ++ (39 :: 58 :: encNtn v))

def encNtnMTailEnc : List (List Nat × LLSD) → List Nat
  | [] => [125]
  | e :: t => 44 :: (encNtnEnt e ++ encNtnMTailEnc t)

end

mutual

/-- Notation parser: reads one value from the current position after skipping
whitespace; any non-matching production is a failure of the whole parse. -/
def prsNtn : Nat → List Nat → Option (LLSD × List Nat × Nat)
  | 0, _ => none
  | f + 1, input =>
    match skipWs input with
    | [] => none
    | 33 :: r => some (.undef, r, 1)
    | 48 :: r => some (.boolean false, r, 1)
    | 49 :: r => some (.boolean true, r, 1)
    | 116 :: r =>
      match r with
      | 114 :: r2 =>
        match r2 with
        | 117 :: 101 :: r3 => some (.boolean true, r3, 1)
        | _ => none
      | _ => some (.boolean true, r, 1)
    | 84 :: r =>
      match r with
      | 82 :: r2 =>
        match r2 with
        | 85 :: 69 :: r3 => some (.boolean true, r3, 1)
        | _ => none
      | _ => some (.boolean true, r, 1)
    | 102 :: r =>
      match r with
      | 97 :: r2 =>
        match r2 with
        | 108 :: 115 :: 101 :: r3 => some (.boolean false, r3, 1)
        | _ => none
      | _ => some (.boolean false, r, 1)
    | 70 :: r =>
      match r with
      | 65 :: r2 =>
        match r2 with
        | 76 :: 83 :: 69 :: r3 => some (.boolean false, r3, 1)
        | _ => none
      | _ => some (.boolean false, r, 1)
    | 105 :: r =>
      match readInt r with
      | some (i, r1) =>
        if -2147483648 ≤ i ∧ i < 2147483648 then some (.integer i, r1, 1) else none
      | none => none
    | 114 :: r =>
      match takeReal r with
      | (t, r1) => if t = [] then none else some (.real (realOfText t), r1, 1)
    | 117 :: r =>
      match readUuid r with
      | some (u, r1) => some (.uuid u, r1, 1)
      | none => none
    | 115 :: r =>
      match r with
      | 40 :: r1 =>
        match takeDigits r1 with
        | (ds, r2) =>
          if ds = [] then none
          else
            match r2 with
            | 41 :: q :: r3 =>
              if q = 34 ∨ q = 39 then
                match readN (scanVal ds) r3 with
                | some (s, r4) =>
                  match r4 with
                  | c :: r5 => if c = q then some (.string s, r5, 1) else none
                  | [] => none
                | none => none
              else none
            | _ => none
      | _ => none
    | 34 :: r =>
      match readQ 34 r with
      | some (s, r1) => some (.string s, r1, 1)
      | none => none
    | 39 :: r =>
      match readQ 39 r with
      | some (s, r1) => some (.string s, r1, 1)
      | none => none
    | 108 :: r =>
      match r with
      | q :: r1 =>
        if q = 34 ∨ q = 39 then
          match readQ q r1 with
          | some (s, r2) => some (.uri s, r2, 1)
          | none => none
        else none
      | [] => none
    | 100 :: r =>
      match r with
      | q :: r1 =>
        if q = 34 ∨ q = 39 then
          match readQ q r1 with
          | some (t, r2) => some (.date (realOfText t), r2, 1)
          | none => none
        else none
      | [] => none
    | 98 :: r =>
      match r with
      | 40 :: r1 =>
        match takeDigits r1 with
        | (ds, r2) =>
          if ds = [] then none
          else
            match r2 with
            | 41 :: q :: r3 =>
              if q = 34 ∨ q = 39 then
                match readN (scanVal ds) r3 with
                | some (s, r4) =>
                  match r4 with
                  | c :: r5 => if c = q then some (.binary s, r5, 1) else none
                  | [] => none
                | none => none
              else none
            | _ => none
      | 54 :: 52 :: q :: r1 =>
        if q = 34 ∨ q = 39 then
          match readQ q r1 with
          | some (t, r2) =>
            match b64d t with
            | some bs => some (.binary bs, r2, 1)
            | none => none
          | none => none
        else none
      | 49 :: 54 :: q :: r1 =>
        if q = 34 ∨ q = 39 then
          match readQ q r1 with
          | some (t, r2) =>
            match readHexPairs t with
            | some bs => some (.binary bs, r2, 1)
            | none => none
          | none => none
        else none
      | _ => none
    | 91 :: r =>
      if (skipWs r).head? = some 93 then some (.array [], (skipWs r).tail, 1)
      else
        match prsNtn f r with
        | some (x, r1, c1) =>
          match prsNtnTail f r1 with
          | some (xs, r2, c2) => some (.array (x :: xs), r2, 1 + c1 + c2)
          | none => none
        | none => none
    | 123 :: r =>
      if (skipWs r).head? = some 125 then some (.map [], (skipWs r).tail, 1)
      else
        match prsNtnEnt f r with
        | some (e, r1, c1) =>
          match prsNtnMTail f r1 (mapSet e.1 e.2 []) with
          | some (m, r2, c2) => some (.map m, r2, 1 + c1 + c2)
          | none => none
        | none => none
    | _ => none

def prsNtnTail : Nat → List Nat → Option (List LLSD × List Nat × Nat)
  | 0, _ => none
  | f + 1, input =>
    match skipWs input with
    | 93 :: r => some ([], r, 0)
    | 44 :: r =>
      match prsNtn f r with
      | some (x, r1, c1) =>
        match prsNtnTail f r1 with
        | some (xs, r2, c2) => some (x :: xs, r2, c1 + c2)
        | none => none
      | none => none
    | _ => none

def prsNtnEnt : Nat → List Nat → Option ((List Nat × LLSD) × List Nat × Nat)
  | 0, _ => none
  | f + 1, input =>
    match skipWs input with
    | q :: r =>
      if q = 39 ∨ q = 34 then
        match readQ q r with
        | some (k, r1) =>
          match skipWs r1 with
          | 58 :: r2 =>
            match prsNtn f r2 with
            | some (v, r3, c) => some ((k, v), r3, c)
            | none => none
          | _ => none
        | none => none
      else none
    | [] => none

def prsNtnMTail : Nat → List Nat → List (List Nat × LLSD) →
    Option (List (List Nat × LLSD) × List Nat × Nat)
  | 0, _, _ => none
  | f + 1, input, acc =>
    match skipWs input with
    | 125 :: r => some (acc, r, 0)
    | 44 :: r =>
      match prsNtnEnt f r with
      | some (e, r1, c1) =>
        match prsNtnMTail f r1 (mapSet e.1 e.2 acc) with
        | some (m, r2, c2) => some (m, r2, c1 + c2)
        | none => none
      | none => none
    | _ => none

end

/-- Facade: format a value tree to notation text; the count is the node count. -/
def toNtn (v : LLSD) : List Nat × Int := (encNtn v, (nodesV v : Int))

/-- Facade: parse one value from notation text. -/
def fromNtn (input : List Nat) : LLSD × Int :=
  match prsNtn (2 * input.length + 2) input with
  | some (v, _, c) => (v, (c : Int))
  | none => (.undef, PARSE_FAILURE)

theorem noDigitHead_of_noReal (l : List Nat) (h : noRealHead l) : noDigitHead l := by
  cases l with
  | nil => trivial
  | cons c r =>
    simp only [noRealHead] at h
    simp only [noDigitHead]
    simp only [isRealChar, Bool.or_eq_false_iff] at h
    exact h.1.1.1.1.1

theorem realChar_of_digit (c : Nat) (h : isDigitB c = true) : isRealChar c = true := by
  simp [isRealChar, h]

theorem escQ_id (q : Nat) (s : List Nat) (h : ∀ c ∈ s, ¬(c = 92) ∧ ¬(c = q)) :
    escQ q s = s := by
  induction s with
  | nil => rfl
  | cons c rest ih =>
    have hc := h c (by simp)
    rw [escQ, if_neg (by simp [hc.1, hc.2]), ih (fun x hx => h x (by simp [hx]))]

theorem natText_digit_bound (p : Nat) : ∀ c ∈ natText p, 48 ≤ c ∧ c ≤ 57 := by
  intro c hc
  have := natText_digits c hc
  simp only [isDigitB, Bool.and_eq_true, decide_eq_true_eq] at this
  exact this

/-- The first byte of any notation encoding: never whitespace and never a
container terminator. -/
theorem encNtn_head (v : LLSD) : ∃ c t, encNtn v = c :: t ∧ isWsB c = false ∧ c ≠ 93 := by
  cases v with
  | undef => exact ⟨33, _, rfl, rfl, by omega⟩
  | boolean b => cases b
                 · exact ⟨48, _, rfl, rfl, by omega⟩
                 · exact ⟨49, _, rfl, rfl, by omega⟩
  | integer i => exact ⟨105, _, rfl, rfl, by omega⟩
  | real p => exact ⟨114, _, rfl, rfl, by omega⟩
  | string s => exact ⟨115, _, rfl, rfl, by omega⟩
  | uuid u => exact ⟨117, _, rfl, rfl, by omega⟩
  | date p => exact ⟨100, _, rfl, rfl, by omega⟩
  | uri s => exact ⟨108, _, rfl, rfl, by omega⟩
  | binary bs => exact ⟨98, _, rfl, rfl, by omega⟩
  | array xs => cases xs
                · exact ⟨91, _, rfl, rfl, by omega⟩
                · exact ⟨91, _, rfl, rfl, by omega⟩
  | map m => cases m
             · exact ⟨123, _, rfl, rfl, by omega⟩
             · exact ⟨123, _, rfl, rfl, by omega⟩

mutual

theorem prsNtn_encNtn : ∀ (v : LLSD), wfV v = true → ∀ (f : Nat), msrV v ≤ f →
    ∀ (rest : List Nat), noRealHead rest →
    prsNtn f (encNtn v ++ rest) = some (v, rest, nodesV v)
  | .undef, _, f, hf, rest, _ => by
    simp only [msrV] at hf
    cases f with
    | zero => omega
    | succ f' => rfl
  | .boolean b, _, f, hf, rest, _ => by
    simp only [msrV] at hf
    cases f with
    | zero => omega
    | succ f' => cases b <;> rfl
  | .integer i, hw, f, hf, rest, hr => by
    simp only [msrV] at hf
    simp only [wfV, Bool.and_eq_true, decide_eq_true_eq] at hw
    cases f with
    | zero => omega
    | succ f' =>
      simp only [encNtn, List.cons_append]
      have hstep : prsNtn (f' + 1) (105 :: (intText i ++ rest)) =
          match readInt (intText i ++ rest) with
          | some (i2, r1) =>
            if -2147483648 ≤ i2 ∧ i2 < 2147483648 then some (.integer i2, r1, 1) else none
          | none => none := rfl
      rw [hstep, readInt_intText i rest (noDigitHead_of_noReal rest hr)]
      simp only []
      rw [if_pos ⟨hw.1, hw.2⟩]
      rfl
  | .real p, hw, f, hf, rest, hr => by
    simp only [msrV] at hf
    simp only [wfV, decide_eq_true_eq] at hw
    cases f with
    | zero => omega
    | succ f' =>
      simp only [encNtn, List.cons_append]
      have hstep : prsNtn (f' + 1) (114 :: (natText p ++ rest)) =
          match takeReal (natText p ++ rest) with
          | (t, r1) => if t = [] then none else some (.real (realOfText t), r1, 1) := rfl
      rw [hstep,
        takeReal_append _ _ (fun c hc => realChar_of_digit c (natText_digits c hc)) hr]
      simp only []
      rw [if_neg (natText_ne_nil p), realOfText_natText p hw]
      rfl
  | .string s, hw, f, hf, rest, _ => by
    simp only [msrV] at hf
    simp only [wfV, Bool.and_eq_true, decide_eq_true_eq] at hw
    cases f with
    | zero => omega
    | succ f' =>
      simp only [encNtn, List.cons_append, List.append_assoc, List.singleton_append,
        List.nil_append]
      have hstep : prsNtn (f' + 1)
          (115 :: 40 :: (natText s.length ++ (41 :: 34 :: (s ++ 34 :: rest)))) =
          match takeDigits (natText s.length ++ (41 :: 34 :: (s ++ 34 :: rest))) with
          | (ds, r2) =>
            if ds = [] then none
            else
              match r2 with
              | 41 :: q :: r3 =>
                if q = 34 ∨ q = 39 then
                  match readN (scanVal ds) r3 with
                  | some (t, r4) =>
                    match r4 with
                    | c :: r5 => if c = q then some (.string t, r5, 1) else none
                    | [] => none
                  | none => none
                else none
              | _ => none := rfl
      rw [hstep, takeDigits_append (natText s.length) (41 :: 34 :: (s ++ 34 :: rest))
        (fun c hc => natText_digits c hc)
        (show isDigitB 41 = false from rfl)]
      simp only []
      rw [if_neg (natText_ne_nil s.length)]
      rw [scanVal_natText, readN_append s (34 :: rest)]
      rfl
  | .uuid u, hw, f, hf, rest, _ => by
    simp only [msrV] at hf
    simp only [wfV, Bool.and_eq_true, decide_eq_true_eq, List.all_eq_true] at hw
    cases f with
    | zero => omega
    | succ f' =>
      simp only [encNtn, List.cons_append]
      have hstep : prsNtn (f' + 1) (117 :: (uuidText u ++ rest)) =
          match readUuid (uuidText u ++ rest) with
          | some (u2, r1) => some (.uuid u2, r1, 1)
          | none => none := rfl
      rw [hstep,
        readUuid_uuidText u hw.2 (fun b hb => by simpa using hw.1 b hb) rest]
      rfl
  | .date p, hw, f, hf, rest, _ => by
    simp only [msrV] at hf
    simp only [wfV, decide_eq_true_eq] at hw
    cases f with
    | zero => omega
    | succ f' =>
      simp only [encNtn, List.cons_append, List.append_assoc, List.singleton_append,
        List.nil_append]
      have hstep : prsNtn (f' + 1) (100 :: 34 :: (natText p ++ 34 :: rest)) =
          match readQ 34 (natText p ++ 34 :: rest) with
          | some (t, r2) => some (.date (realOfText t), r2, 1)
          | none => none := rfl
      have hid : escQ 34 (natText p) = natText p :=
        escQ_id 34 (natText p)
          (fun c hc => by have := natText_digit_bound p c hc; omega)
      rw [hstep, ← hid, readQ_escQ 34 (by omega) (natText p) rest]
      simp only []
      rw [realOfText_natText p hw]
      rfl
  | .uri s, hw, f, hf, rest, _ => by
    simp only [msrV] at hf
    cases f with
    | zero => omega
    | succ f' =>
      simp only [encNtn, List.cons_append, List.append_assoc, List.singleton_append,
        List.nil_append]
      have hstep : prsNtn (f' + 1) (108 :: 34 :: (escQ 34 s ++ 34 :: rest)) =
          match readQ 34 (escQ 34 s ++ 34 :: rest) with
          | some (t, r2) => some (.uri t, r2, 1)
          | none => none := rfl
      rw [hstep, readQ_escQ 34 (by omega) s rest]
      rfl
  | .binary bs, hw, f, hf, rest, _ => by
    simp only [msrV] at hf
    cases f with
    | zero => omega
    | succ f' =>
      simp only [encNtn, List.cons_append, List.append_assoc, List.singleton_append,
        List.nil_append]
      have hstep : prsNtn (f' + 1)
          (98 :: 40 :: (natText bs.length ++ (41 :: 34 :: (bs ++ 34 :: rest)))) =
          match takeDigits (natText bs.length ++ (41 :: 34 :: (bs ++ 34 :: rest))) with
          | (ds, r2) =>
            if ds = [] then none
            else
              match r2 with
              | 41 :: q :: r3 =>
                if q = 34 ∨ q = 39 then
                  match readN (scanVal ds) r3 with
                  | some (t, r4) =>
                    match r4 with
                    | c :: r5 => if c = q then some (.binary t, r5, 1) else none
                    | [] => none
                  | none => none
                else none
              | _ => none := rfl
      rw [hstep, takeDigits_append (natText bs.length) (41 :: 34 :: (bs ++ 34 :: rest))
        (fun c hc => natText_digits c hc)
        (show isDigitB 41 = false from rfl)]
      simp only []
      rw [if_neg (natText_ne_nil bs.length)]
      rw [scanVal_natText, readN_append bs (34 :: rest)]
      rfl
  | .array [], _, f, hf, rest, _ => by
    simp only [msrV, msrL] at hf
    cases f with
    | zero => omega
    | succ f' => rfl
  | .array (x :: t), hw, f, hf, rest, _ => by
    simp only [msrV, msrL] at hf
    simp only [wfV, wfL, Bool.and_eq_true, decide_eq_true_eq] at hw
    cases f with
    | zero => omega
    | succ f' =>
      have hxp := msrV_pos x
      simp only [encNtn, List.cons_append, List.append_assoc]
      obtain ⟨c, t', hct, hws, h93⟩ := encNtn_head x
      have hstep : prsNtn (f' + 1) (91 :: (encNtn x ++ (encNtnTail t ++ rest))) =
          (if (skipWs (encNtn x ++ (encNtnTail t ++ rest))).head? = some 93 then
            some (.array [], (skipWs (encNtn x ++ (encNtnTail t ++ rest))).tail, 1)
          else
            match prsNtn f' (encNtn x ++ (encNtnTail t ++ rest)) with
            | some (y, r1, c1) =>
              match prsNtnTail f' r1 with
              | some (ys, r2, c2) => some (.array (y :: ys), r2, 1 + c1 + c2)
              | none => none
            | none => none) := rfl
      have hsk : skipWs (encNtn x ++ (encNtnTail t ++ rest)) =
          encNtn x ++ (encNtnTail t ++ rest) := by
        rw [hct, List.cons_append, skipWs, if_neg (by simp [hws])]
      rw [hstep, hsk]
      rw [if_neg (by rw [hct, List.cons_append, List.head?_cons]; simp [h93])]
      rw [prsNtn_encNtn x hw.2.1 f' (by omega) (encNtnTail t ++ rest)
        (by cases t <;> exact rfl)]
      simp only []
      rw [prsNtnTail_enc t hw.2.2 f' (by omega) rest]
      simp only []
      have hcount : 1 + nodesV x + nodesL t = nodesV (.array (x :: t)) := by
        simp only [nodesV, nodesL]
        omega
      rw [hcount]
  | .map [], _, f, hf, rest, _ => by
    simp only [msrV, msrM] at hf
    cases f with
    | zero => omega
    | succ f' => rfl
  | .map ((k, v) :: t), hw, f, hf, rest, _ => by
    simp only [msrV, msrM] at hf
    simp only [wfV, wfM, Bool.and_eq_true, decide_eq_true_eq] at hw
    cases f with
    | zero => omega
    | succ f' =>
      have hvp := msrV_pos v
      simp only [encNtn, List.cons_append, List.append_assoc]
      have hstep : prsNtn (f' + 1)
          (123 :: (encNtnEnt (k, v) ++ (encNtnMTailEnc t ++ rest))) =
          match prsNtnEnt f' (encNtnEnt (k, v) ++ (encNtnMTailEnc t ++ rest)) with
          | some (e, r1, c1) =>
            match prsNtnMTail f' r1 (mapSet e.1 e.2 []) with
            | some (m2, r2, c2) => some (.map m2, r2, 1 + c1 + c2)
            | none => none
          | none => none := rfl
      rw [hstep, prsNtnEnt_enc (k, v) hw.2.1.2 f'
        (by show msrV v + 1 ≤ f'; omega) (encNtnMTailEnc t ++ rest)
        (by cases t <;> exact rfl)]
      simp only []
      have hacc : mapSet k v [] = [(k, v)] := rfl
      rw [hacc]
      rw [prsNtnMTail_enc t hw.2.2 [(k, v)] (by simpa using hw.1.2) f' (by omega) rest]
      simp only [List.singleton_append]
      have hcount : 1 + nodesV v + nodesM t = nodesV (.map ((k, v) :: t)) := by
        simp only [nodesV, nodesM]
        omega
      rw [hcount]

theorem prsNtnTail_enc : ∀ (xs : List LLSD), wfL xs = true → ∀ (f : Nat),
    msrL xs + 1 ≤ f → ∀ (rest : List Nat),
    prsNtnTail f (encNtnTail xs ++ rest) = some (xs, rest, nodesL xs)
  | [], _, f, hf, rest => by
    cases f with
    | zero => omega
    | succ f' => rfl
  | x :: t, hw, f, hf, rest => by
    simp only [msrL] at hf
    simp only [wfL, Bool.and_eq_true] at hw
    cases f with
    | zero => omega
    | succ f' =>
      have hxp := msrV_pos x
      simp only [encNtnTail, List.cons_append, List.append_assoc]
      have hstep : prsNtnTail (f' + 1) (44 :: (encNtn x ++ (encNtnTail t ++ rest))) =
          match prsNtn f' (encNtn x ++ (encNtnTail t ++ rest)) with
          | some (y, r1, c1) =>
            match prsNtnTail f' r1 with
            | some (ys, r2, c2) => some (y :: ys, r2, c1 + c2)
            | none => none
          | none => none := rfl
      rw [hstep, prsNtn_encNtn x hw.1 f' (by omega) (encNtnTail t ++ rest)
        (by cases t <;> exact rfl)]
      simp only []
      rw [prsNtnTail_enc t hw.2 f' (by omega) rest]
      rfl

theorem prsNtnEnt_enc : ∀ (e : List Nat × LLSD), wfV e.2 = true → ∀ (f : Nat),
    msrV e.2 + 1 ≤ f → ∀ (rest : List Nat), noRealHead rest →
    prsNtnEnt f (encNtnEnt e ++ rest) = some (e, rest, nodesV e.2)
  | (k, v), hw, f, hf, rest, hr => by
    have hf2 : msrV v + 1 ≤ f := hf
    cases f with
    | zero => omega
    | succ f' =>
      simp only [encNtnEnt, List.cons_append, List.append_assoc]
      have hstep : prsNtnEnt (f' + 1)
          (39 :: (escQ 39 k ++ (39 :: 58 :: (encNtn v ++ rest)))) =
          match readQ 39 (escQ 39 k ++ (39 :: 58 :: (encNtn v ++ rest))) with
          | some (k2, r1) =>
            match skipWs r1 with
            | 58 :: r2 =>
              match prsNtn f' r2 with
              | some (v2, r3, c) => some ((k2, v2), r3, c)
              | none => none
            | _ => none
          | none => none := rfl
      rw [hstep, readQ_escQ 39 (by omega) k (58 :: (encNtn v ++ rest))]
      simp only []
      rw [show skipWs (58 :: (encNtn v ++ rest)) = 58 :: (encNtn v ++ rest) from rfl]
      simp only []
      rw [prsNtn_encNtn v hw f' (by omega) rest hr]

theorem prsNtnMTail_enc : ∀ (m : List (List Nat × LLSD)), wfM m = true →
    ∀ (acc : List (List Nat × LLSD)), keysSorted (acc ++ m) = true → ∀ (f : Nat),
    msrM m + 1 ≤ f → ∀ (rest : List Nat),
    prsNtnMTail f (encNtnMTailEnc m ++ rest) acc = some (acc ++ m, rest, nodesM m)
  | [], _, acc, _, f, hf, rest => by
    cases f with
    | zero => omega
    | succ f' =>
      simp only [encNtnMTailEnc, List.singleton_append, List.append_nil]
      rfl
  | (k, v) :: t, hw, acc, hs, f, hf, rest => by
    simp only [msrM] at hf
    simp only [wfM, Bool.and_eq_true, decide_eq_true_eq] at hw
    cases f with
    | zero => omega
    | succ f' =>
      have hvp := msrV_pos v
      simp only [encNtnMTailEnc, List.cons_append, List.append_assoc]
      have hstep : prsNtnMTail (f' + 1)
          (44 :: (encNtnEnt (k, v) ++ (encNtnMTailEnc t ++ rest))) acc =
          match prsNtnEnt f' (encNtnEnt (k, v) ++ (encNtnMTailEnc t ++ rest)) with
          | some (e, r1, c1) =>
            match prsNtnMTail f' r1 (mapSet e.1 e.2 acc) with
            | some (m2, r2, c2) => some (m2, r2, c1 + c2)
            | none => none
          | none => none := rfl
      rw [hstep, prsNtnEnt_enc (k, v) hw.1.2 f'
        (by show msrV v + 1 ≤ f'; omega) (encNtnMTailEnc t ++ rest)
        (by cases t <;> exact rfl)]
      simp only []
      have hins : mapSet k v acc = acc ++ [(k, v)] :=
        mapSet_append k v acc (keysSorted_mid acc (k, v) t hs)
      have hs2 : keysSorted ((acc ++ [(k, v)]) ++ t) = true := by
        have he : (acc ++ [(k, v)]) ++ t = acc ++ (k, v) :: t := by simp
        rw [he]; exact hs
      rw [hins, prsNtnMTail_enc t hw.2 (acc ++ [(k, v)]) hs2 f' (by omega) rest]
      simp only [List.append_assoc, List.singleton_append, nodesM]

end

mutual

theorem msrV_le_encNtn : ∀ (v : LLSD), msrV v + 1 ≤ 2 * (encNtn v).length
  | .undef => by simp [msrV, encNtn]
  | .boolean b => by cases b <;> simp [msrV, encNtn]
  | .integer i => by simp [msrV, encNtn]
  | .real p => by simp [msrV, encNtn]
  | .string s => by simp [msrV, encNtn]
  | .uuid u => by simp [msrV, encNtn]
  | .date p => by simp [msrV, encNtn]
  | .uri s => by simp [msrV, encNtn]
  | .binary bs => by simp [msrV, encNtn]
  | .array [] => by simp [msrV, msrL, encNtn]
  | .array (x :: t) => by
    have h1 := msrV_le_encNtn x
    have h2 := msrL_le_encNtnTail t
    simp only [msrV, msrL, encNtn, List.length_cons, List.length_append]
    omega
  | .map [] => by simp [msrV, msrM, encNtn]
  | .map ((k, v) :: t) => by
    have h1 := msrV_le_encNtn v
    have h2 := msrM_le_encNtnMTail t
    simp only [msrV, msrM, encNtn, encNtnEnt, List.length_cons, List.length_append]
    omega

theorem msrL_le_encNtnTail : ∀ (xs : List LLSD), msrL xs + 2 ≤ 2 * (encNtnTail xs).length
  | [] => by simp [msrL, encNtnTail]
  | x :: t => by
    have h1 := msrV_le_encNtn x
    have h2 := msrL_le_encNtnTail t
    simp only [msrL, encNtnTail, List.length_cons, List.length_append]
    omega

theorem msrM_le_encNtnMTail : ∀ (m : List (List Nat × LLSD)),
    msrM m + 2 ≤ 2 * (encNtnMTailEnc m).length
  | [] => by simp [msrM, encNtnMTailEnc]
  | (k, v) :: t => by
    have h1 := msrV_le_encNtn v
    have h2 := msrM_le_encNtnMTail t
    simp only [msrM, encNtnMTailEnc, encNtnEnt, List.length_cons, List.length_append]
    omega

end

/-- Notation facade round trip. -/
theorem fromNtn_toNtn (v : LLSD) (h : wfV v = true) :
    fromNtn (toNtn v).1 = (v, (nodesV v : Int)) := by
  have hmsr := msrV_le_encNtn v
  have hle : msrV v ≤ 2 * (encNtn v).length + 2 := by omega
  have hrt := prsNtn_encNtn v h (2 * (encNtn v).length + 2) hle [] trivial
  rw [List.append_nil] at hrt
  simp only [toNtn, fromNtn, hrt]

/-- Raw bytes of a markup tag up to the closing angle bracket. -/
def readTagRaw : List Nat → Option (List Nat × List Nat)
  | [] => none
  | 62 :: rest => some ([], rest)
  | c :: rest => (readTagRaw rest).map (fun p => (c :: p.1, p.2))

/-- A parsed markup tag. -/
inductive XTag where
  | opn (name : List Nat)
  | cls (name : List Nat)
  | slf (name : List Nat)

/-- Element name of a tag body: the bytes before the first space (attributes
are not interpreted). -/
def tagName (t : List Nat) : List Nat := t.takeWhile (fun c => !(c == 32))

/-- Read one tag at the head of the input. -/
def parseTag (l : List Nat) : Option (XTag × List Nat) :=
  match l with
  | 60 :: rest =>
    match readTagRaw rest with
    | some (t, r) =>
      match t with
      | 47 :: nm => some (.cls nm, r)
      | _ =>
        if t.getLast? = some 47 then some (.slf (tagName t.dropLast), r)
        else some (.opn (tagName t), r)
    | none => none
  | _ => none

/-- The value-element names this engine recognizes. -/
def xmlNames : List (List Nat) :=
  [strB ("undef"), strB ("boolean"), strB ("integer"), strB ("real"), strB ("string"),
   strB ("uuid"), strB ("date"), strB ("uri"), strB ("binary"), strB ("array"),
   strB ("map")]

/-- Recognized value-element name test. -/
def isXmlValueName (nm : List Nat) : Bool := xmlNames.contains nm

/-- Identifier text reading: empty text is the null identifier; malformed text
also reads as the null identifier. -/
def uuidOfText (t : List Nat) : List Nat :=
  if t = [] then List.replicate 16 0
  else
    match readUuid t with
    | some (u, []) => u
    | _ => List.replicate 16 0

/-- Scalar element decoding from element name and character data. -/
def xmlScalar (nm t : List Nat) : Option LLSD :=
  if nm = strB ("undef") then some .undef
  else if nm = strB ("boolean") then
    some (.boolean ((t == strB ("true")) || (t == strB ("1"))))
  else if nm = strB ("integer") then some (.integer (intOfText t))
  else if nm = strB ("real") then some (.real (realOfText t))
  else if nm = strB ("string") then some (.string t)
  else if nm = strB ("uuid") then some (.uuid (uuidOfText t))
  else if nm = strB ("date") then some (.date (realOfText t))
  else if nm = strB ("uri") then some (.uri t)
  else if nm = strB ("binary") then (b64d t).map .binary
  else none

/-- Self-closing element decoding. -/
def xmlSelf (nm : List Nat) : Option LLSD :=
  if nm = strB ("array") then some (.array [])
  else if nm = strB ("map") then some (.map [])
  else xmlScalar nm []

/-- Drop character data up to the next tag opener. -/
def dropToLt : List Nat → Option (List Nat)
  | [] => none
  | 60 :: rest => some (60 :: rest)
  | _ :: rest => dropToLt rest

/-- Skip a balanced run of markup: consume tags until the open-tag depth
returns to zero. -/
def skipBal : Nat → Nat → List Nat → Option (List Nat)
  | 0, _, _ => none
  | f + 1, depth, input =>
    match dropToLt input with
    | some l =>
      match parseTag l with
      | some (.opn _, r) => skipBal f (depth + 1) r
      | some (.slf _, r) => skipBal f depth r
      | some (.cls _, r) => if depth = 1 then some r else skipBal f (depth - 1) r
      | none => none
    | none => none

mutual

/-- XML value parser: reads one value element.  Unrecognized elements are a
failure at value position; the container loops below recover from them
locally instead. -/
def prsXml : Nat → List Nat → Option (LLSD × List Nat × Nat)
  | 0, _ => none
  | f + 1, input =>
    match parseTag input with
    | some (.slf nm, r) => (xmlSelf nm).map (fun v => (v, r, 1))
    | some (.opn nm, r) =>
      if nm = strB ("array") then
        match prsXmlArr f r with
        | some (xs, r2, c) => some (.array xs, r2, 1 + c)
        | none => none
      else if nm = strB ("map") then
        match prsXmlMap f r [] with
        | some (m, r2, c) => some (.map m, r2, 1 + c)
        | none => none
      else
        match readText r with
        | some (t, r1) =>
          match parseTag r1 with
          | some (.cls nm2, r2) =>
            if nm2 = nm then (xmlScalar nm t).map (fun v => (v, r2, 1)) else none
          | _ => none
        | none => none
    | _ => none

/-- XML array body: children parsed in order; an unrecognized child element is
substituted by a counted Undefined element. -/
def prsXmlArr : Nat → List Nat → Option (List LLSD × List Nat × Nat)
  | 0, _ => none
  | f + 1, input =>
    match parseTag input with
    | some (.cls nm, r) => if nm = strB ("array") then some ([], r, 0) else none
    | some (.opn nm, r) =>
      if isXmlValueName nm then
        match prsXml f input with
        | some (v, r1, c1) =>
          match prsXmlArr f r1 with
          | some (xs, r2, c2) => some (v :: xs, r2, c1 + c2)
          | none => none
        | none => none
      else
        match skipBal f 1 r with
        | some r1 =>
          match prsXmlArr f r1 with
          | some (xs, r2, c2) => some (.undef :: xs, r2, 1 + c2)
          | none => none
        | none => none
    | some (.slf nm, r) =>
      if isXmlValueName nm then
        match prsXml f input with
        | some (v, r1, c1) =>
          match prsXmlArr f r1 with
          | some (xs, r2, c2) => some (v :: xs, r2, c1 + c2)
          | none => none
        | none => none
      else
        match prsXmlArr f r with
        | some (xs, r2, c2) => some (.undef :: xs, r2, 1 + c2)
        | none => none
    | none => none

/-- XML map body: `<key>` text followed by a value element per entry; a keyed
unrecognized value is a counted Undefined entry, while a child with no
preceding key (recognized or not) is skipped without a count. -/
def prsXmlMap : Nat → List Nat → List (List Nat × LLSD) →
    Option (List (List Nat × LLSD) × List Nat × Nat)
  | 0, _, _ => none
  | f + 1, input, acc =>
    match parseTag input with
    | some (.cls nm, r) => if nm = strB ("map") then some (acc, r, 0) else none
    | some (.opn nm, r) =>
      if nm = strB ("key") then
        match readText r with
        | some (k, r1) =>
          match parseTag r1 with
          | some (.cls nm2, r2) =>
            if nm2 = strB ("key") then
              match parseTag r2 with
              | some (.cls nm3, r3) =>
                if nm3 = strB ("map") then some (mapSet k .undef acc, r3, 1) else none
              | some (.opn nm3, r3) =>
                if isXmlValueName nm3 then
                  match prsXml f r2 with
                  | some (v, r4, c1) =>
                    match prsXmlMap f r4 (mapSet k v acc) with
                    | some (m, r5, c2) => some (m, r5, c1 + c2)
                    | none => none
                  | none => none
                else
                  match skipBal f 1 r3 with
                  | some r4 =>
                    match prsXmlMap f r4 (mapSet k .undef acc) with
                    | some (m, r5, c2) => some (m, r5, 1 + c2)
                    | none => none
                  | none => none
              | some (.slf nm3, r3) =>
                if isXmlValueName nm3 then
                  match prsXml f r2 with
                  | some (v, r4, c1) =>
                    match prsXmlMap f r4 (mapSet k v acc) with
                    | some (m, r5, c2) => some (m, r5, c1 + c2)
                    | none => none
                  | none => none
                else
                  match prsXmlMap f r3 (mapSet k .undef acc) with
                  | some (m, r5, c2) => some (m, r5, 1 + c2)
                  | none => none
              | none => none
            else none
          | _ => none
        | none => none
      else
        match skipBal f 1 r with
        | some r1 =>
          match prsXmlMap f r1 acc with
          | some (m, r2, c2) => some (m, r2, c2)
          | none => none
        | none => none
    | some (.slf _, r) =>
      match prsXmlMap f r acc with
      | some (m, r2, c2) => some (m, r2, c2)
      | none => none
    | none => none

end

mutual

/-- XML formatter (default configuration: compact booleans, full-precision
reals, base64 binary, self-closing empty elements). -/
def encXml : LLSD → List Nat
  | .undef => strB ("<undef />")
  | .boolean b =>
    if b then strB ("<boolean>1</boolean>") else strB ("<boolean>0</boolean>")
  | .integer i => strB ("<integer>") ++ (intText i ++ strB ("</integer>"))
  | .real p => strB ("<real>") ++ (natText p ++ strB ("</real>"))
  | .string s =>
    if s = [] then strB ("<string />")
    else strB ("<string>") ++ (xesc s ++ strB ("</string>"))
  | .uuid u =>
    if u = List.replicate 16 0 then strB ("<uuid />")
    else strB ("<uuid>") ++ (uuidText u ++ strB ("</uuid>"))
  | .date p => strB ("<date>") ++ (natText p ++ strB ("</date>"))
  | .uri s => strB ("<uri>") ++ (xesc s ++ strB ("</uri>"))
  | .binary bs =>
    strB ("<binary encoding=\"base64\">") ++ (b64e bs ++ strB ("</binary>"))
  | .array xs =>
    match xs with
    | [] => strB ("<array />")
    | _ => strB ("<array>") ++ (encXmlL xs ++ strB ("</array>"))
  | .map m =>
    match m with
    | [] => strB ("<map />")
    | _ => strB ("<map>") ++ (encXmlM m ++ strB ("</map>"))

def encXmlL : List LLSD → List Nat
  | [] => []
  | x :: t => encXml x ++ encXmlL t

def encXmlM : List (List Nat × LLSD) → List Nat
  | [] => []
  | (k, v) :: t =>
    strB ("<key>") ++ (xesc k ++ (strB ("</key>") ++ (encXml v ++ encXmlM t)))

end

/-- Document-level XML parse: an `<llsd>` root wrapping exactly one value. -/
def prsXmlDoc (input : List Nat) : Option (LLSD × Nat) :=
  match parseTag input with
  | some (.opn nm, r) =>
    if nm = strB ("llsd") then
      match prsXml (2 * input.length + 2) r with
      | some (v, r1, c) =>
        match parseTag r1 with
        | some (.cls nm2, _) => if nm2 = strB ("llsd") then some (v, c) else none
        | _ => none
      | none => none
    else none
  | _ => none

/-- Facade: format a value tree as an XML document; the count is the node
count. -/
def toXml (v : LLSD) : List Nat × Int :=
  (strB ("<llsd>") ++ (encXml v ++ strB ("</llsd>\n")), (nodesV v : Int))

/-- Facade: parse an XML document. -/
def fromXml (input : List Nat) : LLSD × Int :=
  match prsXmlDoc input with
  | some (v, c) => (v, (c : Int))
  | none => (.undef, PARSE_FAILURE)

/-- Entity escaping is the identity on text free of the markup bytes. -/
theorem xesc_id (s : List Nat)
    (h : ∀ c ∈ s, ¬(c = 38) ∧ ¬(c = 60) ∧ ¬(c = 62)) : xesc s = s := by
  induction s using xesc.induct with
  | case1 => rfl
  | case2 s ih => exact absurd rfl (h 38 (by simp)).1
  | case3 s ih => exact absurd rfl (h 60 (by simp)).2.1
  | case4 s ih => exact absurd rfl (h 62 (by simp)).2.2
  | case5 c s hc1 hc2 hc3 ih =>
    have hx : xesc (c :: s) = c :: xesc s := by
      rw [xesc]
      · exact hc1
      · exact hc2
      · exact hc3
    rw [hx, ih (fun d hd => h d (by simp [hd]))]

/-- Decimal digit text contains no markup bytes. -/
theorem natText_free (p : Nat) :
    ∀ c ∈ natText p, ¬(c = 38) ∧ ¬(c = 60) ∧ ¬(c = 62) := by
  intro c hc
  have := natText_digit_bound p c hc
  omega

/-- Signed decimal text contains no markup bytes. -/
theorem intText_free (i : Int) :
    ∀ c ∈ intText i, ¬(c = 38) ∧ ¬(c = 60) ∧ ¬(c = 62) := by
  intro c hc
  unfold intText at hc
  by_cases hneg : i < 0
  · rw [if_pos hneg] at hc
    rcases List.mem_cons.mp hc with h45 | hmem
    · omega
    · have := natText_digit_bound _ c hmem
      omega
  · rw [if_neg hneg] at hc
    have := natText_digit_bound _ c hc
    omega

/-- Hex digit bytes are not markup bytes. -/
theorem isHexB_free (c : Nat) (h : isHexB c = true) :
    ¬(c = 38) ∧ ¬(c = 60) ∧ ¬(c = 62) := by
  unfold isHexB hexVal at h
  split_ifs at h <;> simp_all <;> omega

/-- Hyphenated hex identifier text contains no markup bytes. -/
theorem uuidText_free (bs : List Nat) (hb : ∀ b ∈ bs, b < 256) :
    ∀ c ∈ uuidText bs, ¬(c = 38) ∧ ¬(c = 60) ∧ ¬(c = 62) := by
  intro c hc
  have hpart : ∀ (l : List Nat), (∀ b ∈ l, b < 256) → c ∈ bytesHex l →
      ¬(c = 38) ∧ ¬(c = 60) ∧ ¬(c = 62) := by
    intro l hl hcl
    exact isHexB_free c (bytesHex_isHex l hl c hcl)
  have ht4 : ∀ b ∈ bs.take 4, b < 256 := fun b h => hb b (List.mem_of_mem_take h)
  have hd4 : ∀ b ∈ (bs.drop 4).take 2, b < 256 :=
    fun b h => hb b (List.mem_of_mem_drop (List.mem_of_mem_take h))
  have hd6 : ∀ b ∈ (bs.drop 6).take 2, b < 256 :=
    fun b h => hb b (List.mem_of_mem_drop (List.mem_of_mem_take h))
  have hd8 : ∀ b ∈ (bs.drop 8).take 2, b < 256 :=
    fun b h => hb b (List.mem_of_mem_drop (List.mem_of_mem_take h))
  have hd10 : ∀ b ∈ bs.drop 10, b < 256 := fun b h => hb b (List.mem_of_mem_drop h)
  unfold uuidText at hc
  simp only [List.mem_append, List.mem_cons, or_assoc] at hc
  rcases hc with h1 | h2 | h3 | h4 | h5 | h6 | h7 | h8 | h9
  · exact hpart _ ht4 h1
  · omega
  · exact hpart _ hd4 h3
  · omega
  · exact hpart _ hd6 h5
  · omega
  · exact hpart _ hd8 h7
  · omega
  · exact hpart _ hd10 h9

/-- Length of the hyphenated hex text of a 16-byte identifier. -/
theorem uuidText_length (bs : List Nat) (h : bs.length = 16) :
    (uuidText bs).length = 36 := by
  unfold uuidText
  simp [List.length_append, bytesHex_length, List.length_take, List.length_drop, h]

/-- Reading back the hyphenated hex text of a well-formed identifier. -/
theorem uuidOfText_uuidText (bs : List Nat) (hlen : bs.length = 16)
    (hb : ∀ b ∈ bs, b < 256) : uuidOfText (uuidText bs) = bs := by
  unfold uuidOfText
  rw [if_neg (by
    intro hnil
    have := uuidText_length bs hlen
    rw [hnil] at this
    simp at this)]
  rw [show uuidText bs = uuidText bs ++ [] from (List.append_nil _).symm,
    readUuid_uuidText bs hlen hb []]

/-- Base64 alphabet bytes are not markup bytes. -/
theorem b64c_free (n : Nat) (h : n < 64) :
    ¬(b64c n = 38) ∧ ¬(b64c n = 60) ∧ ¬(b64c n = 62) := by
  unfold b64c
  split_ifs <;> omega

/-- Base64 text of a byte sequence contains no markup bytes. -/
theorem b64e_free (bs : List Nat) (hb : ∀ b ∈ bs, b < 256) :
    ∀ c ∈ b64e bs, ¬(c = 38) ∧ ¬(c = 60) ∧ ¬(c = 62) := by
  induction bs using b64e.induct with
  | case1 =>
    intro c hc
    simp [b64e] at hc
  | case2 a =>
    intro c hc
    have ha : a < 256 := hb a (by simp)
    simp only [b64e, List.mem_cons, List.not_mem_nil, or_false] at hc
    rcases hc with rfl | rfl | rfl | rfl
    · exact b64c_free _ (by omega)
    · exact b64c_free _ (by omega)
    · omega
    · omega
  | case3 a b =>
    intro c hc
    have ha : a < 256 := hb a (by simp)
    have hbb : b < 256 := hb b (by simp)
    simp only [b64e, List.mem_cons, List.not_mem_nil, or_false] at hc
    rcases hc with rfl | rfl | rfl | rfl
    · exact b64c_free _ (by omega)
    · exact b64c_free _ (by omega)
    · exact b64c_free _ (by omega)
    · omega
  | case4 a b c2 rest ih =>
    intro c hc
    have ha : a < 256 := hb a (by simp)
    have hbb : b < 256 := hb b (by simp)
    have hc2 : c2 < 256 := hb c2 (by simp)
    simp only [b64e, List.mem_cons] at hc
    rcases hc with rfl | rfl | rfl | rfl | hmem
    · exact b64c_free _ (by omega)
    · exact b64c_free _ (by omega)
    · exact b64c_free _ (by omega)
    · exact b64c_free _ (by omega)
    · exact ih (fun x hx => hb x (by simp [hx])) c hmem

/-- Every formatted value element starts with a recognized open or
self-closing value tag. -/
theorem encXml_tag (v : LLSD) (l : List Nat) :
    (∃ nm r', parseTag (encXml v ++ l) = some (.opn nm, r') ∧
      isXmlValueName nm = true) ∨
    (∃ nm r', parseTag (encXml v ++ l) = some (.slf nm, r') ∧
      isXmlValueName nm = true) := by
  cases v with
  | undef => exact Or.inr ⟨_, _, rfl, rfl⟩
  | boolean b => cases b <;> exact Or.inl ⟨_, _, rfl, rfl⟩
  | integer i => exact Or.inl ⟨_, _, rfl, rfl⟩
  | real p => exact Or.inl ⟨_, _, rfl, rfl⟩
  | string s =>
    by_cases hnil : s = []
    · rw [show encXml (.string s) = strB ("<string />") by rw [encXml, if_pos hnil]]
      exact Or.inr ⟨_, _, rfl, rfl⟩
    · rw [show encXml (.string s) =
        strB ("<string>") ++ (xesc s ++ strB ("</string>")) by rw [encXml, if_neg hnil]]
      exact Or.inl ⟨_, _, rfl, rfl⟩
  | uuid u =>
    by_cases hz : u = List.replicate 16 0
    · rw [show encXml (.uuid u) = strB ("<uuid />") by rw [encXml, if_pos hz]]
      exact Or.inr ⟨_, _, rfl, rfl⟩
    · rw [show encXml (.uuid u) =
        strB ("<uuid>") ++ (uuidText u ++ strB ("</uuid>")) by rw [encXml, if_neg hz]]
      exact Or.inl ⟨_, _, rfl, rfl⟩
  | date p => exact Or.inl ⟨_, _, rfl, rfl⟩
  | uri s => exact Or.inl ⟨_, _, rfl, rfl⟩
  | binary bs => exact Or.inl ⟨_, _, rfl, rfl⟩
  | array xs =>
    cases xs with
    | nil => exact Or.inr ⟨_, _, rfl, rfl⟩
    | cons x t => exact Or.inl ⟨_, _, rfl, rfl⟩
  | map m =>
    cases m with
    | nil => exact Or.inr ⟨_, _, rfl, rfl⟩
    | cons e t => exact Or.inl ⟨_, _, rfl, rfl⟩

mutual

theorem prsXml_encXml : ∀ (v : LLSD), wfV v = true → ∀ (f : Nat), msrV v ≤ f →
    ∀ (rest : List Nat), prsXml f (encXml v ++ rest) = some (v, rest, nodesV v)
  | .undef, _, f, hf, rest => by
    simp only [msrV] at hf
    cases f with
    | zero => omega
    | succ f' => rfl
  | .boolean b, _, f, hf, rest => by
    simp only [msrV] at hf
    cases f with
    | zero => omega
    | succ f' => cases b <;> rfl
  | .integer i, hw, f, hf, rest => by
    simp only [msrV] at hf
    simp only [wfV, Bool.and_eq_true, decide_eq_true_eq] at hw
    cases f with
    | zero => omega
    | succ f' =>
      simp only [encXml, List.append_assoc]
      rw [show strB ("</integer>") ++ rest = 60 :: (strB ("/integer>") ++ rest) from rfl]
      rw [show intText i = xesc (intText i) from (xesc_id _ (intText_free i)).symm]
      have hstep : prsXml (f' + 1)
          (strB ("<integer>") ++ (xesc (intText i) ++ (60 :: (strB ("/integer>") ++ rest)))) =
          match readText (xesc (intText i) ++ (60 :: (strB ("/integer>") ++ rest))) with
          | some (t, r1) =>
            match parseTag r1 with
            | some (.cls nm2, r2) =>
              if nm2 = strB ("integer") then
                (xmlScalar (strB ("integer")) t).map (fun w => (w, r2, 1))
              else none
            | _ => none
          | none => none := rfl
      rw [hstep, readText_xesc (intText i) (strB ("/integer>") ++ rest)]
      simp only []
      rw [show parseTag (60 :: (strB ("/integer>") ++ rest)) =
          some (.cls (strB ("integer")), rest) from rfl]
      simp only []
      simp only [if_true]
      rw [show xmlScalar (strB ("integer")) (intText i) =
          some (.integer (intOfText (intText i))) from rfl]
      rw [intOfText_intText i hw.1 hw.2]
      rfl
  | .real p, hw, f, hf, rest => by
    simp only [msrV] at hf
    simp only [wfV, decide_eq_true_eq] at hw
    cases f with
    | zero => omega
    | succ f' =>
      simp only [encXml, List.append_assoc]
      rw [show strB ("</real>") ++ rest = 60 :: (strB ("/real>") ++ rest) from rfl]
      rw [show natText p = xesc (natText p) from (xesc_id _ (natText_free p)).symm]
      have hstep : prsXml (f' + 1)
          (strB ("<real>") ++ (xesc (natText p) ++ (60 :: (strB ("/real>") ++ rest)))) =
          match readText (xesc (natText p) ++ (60 :: (strB ("/real>") ++ rest))) with
          | some (t, r1) =>
            match parseTag r1 with
            | some (.cls nm2, r2) =>
              if nm2 = strB ("real") then
                (xmlScalar (strB ("real")) t).map (fun w => (w, r2, 1))
              else none
            | _ => none
          | none => none := rfl
      rw [hstep, readText_xesc (natText p) (strB ("/real>") ++ rest)]
      simp only []
      rw [show parseTag (60 :: (strB ("/real>") ++ rest)) =
          some (.cls (strB ("real")), rest) from rfl]
      simp only []
      simp only [if_true]
      rw [show xmlScalar (strB ("real")) (natText p) =
          some (.real (realOfText (natText p))) from rfl]
      rw [realOfText_natText p hw]
      rfl
  | .date p, hw, f, hf, rest => by
    simp only [msrV] at hf
    simp only [wfV, decide_eq_true_eq] at hw
    cases f with
    | zero => omega
    | succ f' =>
      simp only [encXml, List.append_assoc]
      rw [show strB ("</date>") ++ rest = 60 :: (strB ("/date>") ++ rest) from rfl]
      rw [show natText p = xesc (natText p) from (xesc_id _ (natText_free p)).symm]
      have hstep : prsXml (f' + 1)
          (strB ("<date>") ++ (xesc (natText p) ++ (60 :: (strB ("/date>") ++ rest)))) =
          match readText (xesc (natText p) ++ (60 :: (strB ("/date>") ++ rest))) with
          | some (t, r1) =>
            match parseTag r1 with
            | some (.cls nm2, r2) =>
              if nm2 = strB ("date") then
                (xmlScalar (strB ("date")) t).map (fun w => (w, r2, 1))
              else none
            | _ => none
          | none => none := rfl
      rw [hstep, readText_xesc (natText p) (strB ("/date>") ++ rest)]
      simp only []
      rw [show parseTag (60 :: (strB ("/date>") ++ rest)) =
          some (.cls (strB ("date")), rest) from rfl]
      simp only []
      simp only [if_true]
      rw [show xmlScalar (strB ("date")) (natText p) =
          some (.date (realOfText (natText p))) from rfl]
      rw [realOfText_natText p hw]
      rfl
  | .string s, hw, f, hf, rest => by
    simp only [msrV] at hf
    cases f with
    | zero => omega
    | succ f' =>
      by_cases hnil : s = []
      · subst hnil
        rfl
      · rw [show encXml (.string s) = strB ("<string>") ++ (xesc s ++ strB ("</string>"))
          by rw [encXml, if_neg hnil]]
        simp only [List.append_assoc]
        rw [show strB ("</string>") ++ rest = 60 :: (strB ("/string>") ++ rest) from rfl]
        have hstep : prsXml (f' + 1)
            (strB ("<string>") ++ (xesc s ++ (60 :: (strB ("/string>") ++ rest)))) =
            match readText (xesc s ++ (60 :: (strB ("/string>") ++ rest))) with
            | some (t, r1) =>
              match parseTag r1 with
              | some (.cls nm2, r2) =>
                if nm2 = strB ("string") then
                  (xmlScalar (strB ("string")) t).map (fun w => (w, r2, 1))
                else none
              | _ => none
            | none => none := rfl
        rw [hstep, readText_xesc s (strB ("/string>") ++ rest)]
        simp only []
        rw [show parseTag (60 :: (strB ("/string>") ++ rest)) =
            some (.cls (strB ("string")), rest) from rfl]
        simp only []
        simp only [if_true]
        rfl
  | .uuid u, hw, f, hf, rest => by
    simp only [msrV] at hf
    simp only [wfV, Bool.and_eq_true, List.all_eq_true, decide_eq_true_eq] at hw
    cases f with
    | zero => omega
    | succ f' =>
      by_cases hz : u = List.replicate 16 0
      · subst hz
        rfl
      · rw [show encXml (.uuid u) = strB ("<uuid>") ++ (uuidText u ++ strB ("</uuid>"))
          by rw [encXml, if_neg hz]]
        simp only [List.append_assoc]
        rw [show strB ("</uuid>") ++ rest = 60 :: (strB ("/uuid>") ++ rest) from rfl]
        rw [show uuidText u = xesc (uuidText u) from
          (xesc_id _ (uuidText_free u hw.1)).symm]
        have hstep : prsXml (f' + 1)
            (strB ("<uuid>") ++ (xesc (uuidText u) ++ (60 :: (strB ("/uuid>") ++ rest)))) =
            match readText (xesc (uuidText u) ++ (60 :: (strB ("/uuid>") ++ rest))) with
            | some (t, r1) =>
              match parseTag r1 with
              | some (.cls nm2, r2) =>
                if nm2 = strB ("uuid") then
                  (xmlScalar (strB ("uuid")) t).map (fun w => (w, r2, 1))
                else none
              | _ => none
            | none => none := rfl
        rw [hstep, readText_xesc (uuidText u) (strB ("/uuid>") ++ rest)]
        simp only []
        rw [show parseTag (60 :: (strB ("/uuid>") ++ rest)) =
            some (.cls (strB ("uuid")), rest) from rfl]
        simp only []
        simp only [if_true]
        rw [show xmlScalar (strB ("uuid")) (uuidText u) =
            some (.uuid (uuidOfText (uuidText u))) from rfl]
        rw [uuidOfText_uuidText u hw.2 hw.1]
        rfl
  | .uri s, hw, f, hf, rest => by
    simp only [msrV] at hf
    cases f with
    | zero => omega
    | succ f' =>
      simp only [encXml, List.append_assoc]
      rw [show strB ("</uri>") ++ rest = 60 :: (strB ("/uri>") ++ rest) from rfl]
      have hstep : prsXml (f' + 1)
          (strB ("<uri>") ++ (xesc s ++ (60 :: (strB ("/uri>") ++ rest)))) =
          match readText (xesc s ++ (60 :: (strB ("/uri>") ++ rest))) with
          | some (t, r1) =>
            match parseTag r1 with
            | some (.cls nm2, r2) =>
              if nm2 = strB ("uri") then
                (xmlScalar (strB ("uri")) t).map (fun w => (w, r2, 1))
              else none
            | _ => none
          | none => none := rfl
      rw [hstep, readText_xesc s (strB ("/uri>") ++ rest)]
      simp only []
      rw [show parseTag (60 :: (strB ("/uri>") ++ rest)) =
          some (.cls (strB ("uri")), rest) from rfl]
      simp only []
      simp only [if_true]
      rfl
  | .binary bs, hw, f, hf, rest => by
    simp only [msrV] at hf
    simp only [wfV, Bool.and_eq_true, List.all_eq_true, decide_eq_true_eq] at hw
    cases f with
    | zero => omega
    | succ f' =>
      simp only [encXml, List.append_assoc]
      rw [show strB ("</binary>") ++ rest = 60 :: (strB ("/binary>") ++ rest) from rfl]
      rw [show b64e bs = xesc (b64e bs) from (xesc_id _ (b64e_free bs hw.1)).symm]
      have hstep : prsXml (f' + 1)
          (strB ("<binary encoding=\"base64\">") ++
            (xesc (b64e bs) ++ (60 :: (strB ("/binary>") ++ rest)))) =
          match readText (xesc (b64e bs) ++ (60 :: (strB ("/binary>") ++ rest))) with
          | some (t, r1) =>
            match parseTag r1 with
            | some (.cls nm2, r2) =>
              if nm2 = strB ("binary") then
                (xmlScalar (strB ("binary")) t).map (fun w => (w, r2, 1))
              else none
            | _ => none
          | none => none := rfl
      rw [hstep, readText_xesc (b64e bs) (strB ("/binary>") ++ rest)]
      simp only []
      rw [show parseTag (60 :: (strB ("/binary>") ++ rest)) =
          some (.cls (strB ("binary")), rest) from rfl]
      simp only []
      simp only [if_true]
      rw [show xmlScalar (strB ("binary")) (b64e bs) =
          (b64d (b64e bs)).map .binary from rfl]
      rw [b64d_b64e bs hw.1]
      rfl
  | .array [], _, f, hf, rest => by
    simp only [msrV] at hf
    cases f with
    | zero => omega
    | succ f' => rfl
  | .array (x :: t), hw, f, hf, rest => by
    simp only [msrV] at hf
    simp only [wfV, Bool.and_eq_true, decide_eq_true_eq] at hw
    cases f with
    | zero => omega
    | succ f' =>
      simp only [encXml, List.append_assoc]
      have hstep : prsXml (f' + 1)
          (strB ("<array>") ++ (encXmlL (x :: t) ++ (strB ("</array>") ++ rest))) =
          match prsXmlArr f' (encXmlL (x :: t) ++ (strB ("</array>") ++ rest)) with
          | some (xs, r2, c) => some (.array xs, r2, 1 + c)
          | none => none := rfl
      rw [hstep, prsXmlArr_enc (x :: t) hw.2 f' (by omega) rest]
      rfl
  | .map [], _, f, hf, rest => by
    simp only [msrV] at hf
    cases f with
    | zero => omega
    | succ f' => rfl
  | .map (e :: t), hw, f, hf, rest => by
    simp only [msrV] at hf
    simp only [wfV, Bool.and_eq_true, decide_eq_true_eq] at hw
    cases f with
    | zero => omega
    | succ f' =>
      simp only [encXml, List.append_assoc]
      have hstep : prsXml (f' + 1)
          (strB ("<map>") ++ (encXmlM (e :: t) ++ (strB ("</map>") ++ rest))) =
          match prsXmlMap f' (encXmlM (e :: t) ++ (strB ("</map>") ++ rest)) [] with
          | some (m2, r2, c) => some (.map m2, r2, 1 + c)
          | none => none := rfl
      rw [hstep, prsXmlMap_enc (e :: t) hw.2 f' (by omega) []
        (by simpa using hw.1.2) rest]
      rfl

theorem prsXmlArr_enc : ∀ (xs : List LLSD), wfL xs = true → ∀ (f : Nat),
    msrL xs + 1 ≤ f → ∀ (rest : List Nat),
    prsXmlArr f (encXmlL xs ++ (strB ("</array>") ++ rest)) = some (xs, rest, nodesL xs)
  | [], _, f, hf, rest => by
    cases f with
    | zero => omega
    | succ f' =>
      simp only [encXmlL, List.nil_append]
      rfl
  | x :: t, hw, f, hf, rest => by
    simp only [msrL] at hf
    simp only [wfL, Bool.and_eq_true] at hw
    cases f with
    | zero => omega
    | succ f' =>
      have hxp := msrV_pos x
      simp only [encXmlL, List.append_assoc]
      rw [prsXmlArr.eq_def]
      simp only []
      rcases encXml_tag x (encXmlL t ++ (strB ("</array>") ++ rest)) with
        ⟨nm, r', heq, hval⟩ | ⟨nm, r', heq, hval⟩
      · rw [heq]
        simp only []
        rw [if_pos hval]
        rw [prsXml_encXml x hw.1 f' (by omega) (encXmlL t ++ (strB ("</array>") ++ rest))]
        simp only []
        rw [prsXmlArr_enc t hw.2 f' (by omega) rest]
        rfl
      · rw [heq]
        simp only []
        rw [if_pos hval]
        rw [prsXml_encXml x hw.1 f' (by omega) (encXmlL t ++ (strB ("</array>") ++ rest))]
        simp only []
        rw [prsXmlArr_enc t hw.2 f' (by omega) rest]
        rfl

theorem prsXmlMap_enc : ∀ (m : List (List Nat × LLSD)), wfM m = true → ∀ (f : Nat),
    msrM m + 1 ≤ f → ∀ (acc : List (List Nat × LLSD)),
    keysSorted (acc ++ m) = true → ∀ (rest : List Nat),
    prsXmlMap f (encXmlM m ++ (strB ("</map>") ++ rest)) acc =
      some (acc ++ m, rest, nodesM m)
  | [], _, f, hf, acc, _, rest => by
    cases f with
    | zero => omega
    | succ f' =>
      simp only [encXmlM, List.nil_append, List.append_nil]
      rfl
  | (k, v) :: t, hw, f, hf, acc, hs, rest => by
    simp only [msrM] at hf
    simp only [wfM, Bool.and_eq_true, decide_eq_true_eq] at hw
    cases f with
    | zero => omega
    | succ f' =>
      have hvp := msrV_pos v
      simp only [encXmlM, List.append_assoc]
      rw [show strB ("</key>") ++ (encXml v ++ (encXmlM t ++ (strB ("</map>") ++ rest))) =
          60 :: (strB ("/key>") ++ (encXml v ++ (encXmlM t ++ (strB ("</map>") ++ rest))))
          from rfl]
      have hstep : prsXmlMap (f' + 1)
          (strB ("<key>") ++ (xesc k ++ (60 :: (strB ("/key>") ++
            (encXml v ++ (encXmlM t ++ (strB ("</map>") ++ rest))))))) acc =
          match readText (xesc k ++ (60 :: (strB ("/key>") ++
              (encXml v ++ (encXmlM t ++ (strB ("</map>") ++ rest)))))) with
          | some (k2, r1) =>
            match parseTag r1 with
            | some (.cls nm2, r2) =>
              if nm2 = strB ("key") then
                match parseTag r2 with
                | some (.cls nm3, r3) =>
                  if nm3 = strB ("map") then some (mapSet k2 .undef acc, r3, 1) else none
                | some (.opn nm3, r3) =>
                  if isXmlValueName nm3 then
                    match prsXml f' r2 with
                    | some (w, r4, c1) =>
                      match prsXmlMap f' r4 (mapSet k2 w acc) with
                      | some (m2, r5, c2) => some (m2, r5, c1 + c2)
                      | none => none
                    | none => none
                  else
                    match skipBal f' 1 r3 with
                    | some r4 =>
                      match prsXmlMap f' r4 (mapSet k2 .undef acc) with
                      | some (m2, r5, c2) => some (m2, r5, 1 + c2)
                      | none => none
                    | none => none
                | some (.slf nm3, r3) =>
                  if isXmlValueName nm3 then
                    match prsXml f' r2 with
                    | some (w, r4, c1) =>
                      match prsXmlMap f' r4 (mapSet k2 w acc) with
                      | some (m2, r5, c2) => some (m2, r5, c1 + c2)
                      | none => none
                    | none => none
                  else
                    match prsXmlMap f' r3 (mapSet k2 .undef acc) with
                    | some (m2, r5, c2) => some (m2, r5, 1 + c2)
                    | none => none
                | none => none
              else none
            | _ => none
          | none => none := rfl
      rw [hstep, readText_xesc k (strB ("/key>") ++
        (encXml v ++ (encXmlM t ++ (strB ("</map>") ++ rest))))]
      simp only []
      rw [show parseTag (60 :: (strB ("/key>") ++
          (encXml v ++ (encXmlM t ++ (strB ("</map>") ++ rest))))) =
          some (.cls (strB ("key")), encXml v ++ (encXmlM t ++ (strB ("</map>") ++ rest)))
          from rfl]
      simp only []
      simp only [if_true]
      have hs2 : keysSorted ((acc ++ [(k, v)]) ++ t) = true := by
        have he : (acc ++ [(k, v)]) ++ t = acc ++ (k, v) :: t := by simp
        rw [he]
        exact hs
      have hins : mapSet k v acc = acc ++ [(k, v)] :=
        mapSet_append k v acc (keysSorted_mid acc (k, v) t hs)
      rcases encXml_tag v (encXmlM t ++ (strB ("</map>") ++ rest)) with
        ⟨nm3, r3, heq, hval⟩ | ⟨nm3, r3, heq, hval⟩
      · rw [heq]
        simp only []
        rw [if_pos hval]
        rw [prsXml_encXml v hw.1.2 f' (by omega) (encXmlM t ++ (strB ("</map>") ++ rest))]
        simp only []
        rw [hins, prsXmlMap_enc t hw.2 f' (by omega) (acc ++ [(k, v)]) hs2 rest]
        simp only [List.append_assoc, List.singleton_append, nodesM]
      · rw [heq]
        simp only []
        rw [if_pos hval]
        rw [prsXml_encXml v hw.1.2 f' (by omega) (encXmlM t ++ (strB ("</map>") ++ rest))]
        simp only []
        rw [hins, prsXmlMap_enc t hw.2 f' (by omega) (acc ++ [(k, v)]) hs2 rest]
        simp only [List.append_assoc, List.singleton_append, nodesM]

end

mutual

theorem msrV_le_encXml : ∀ (v : LLSD), msrV v + 1 ≤ 2 * (encXml v).length
  | .undef => by decide
  | .boolean b => by cases b <;> decide
  | .integer i => by
    simp only [msrV, encXml, List.length_append]
    have h1 : (strB ("<integer>")).length = 9 := rfl
    have h2 : (strB ("</integer>")).length = 10 := rfl
    omega
  | .real p => by
    simp only [msrV, encXml, List.length_append]
    have h1 : (strB ("<real>")).length = 6 := rfl
    have h2 : (strB ("</real>")).length = 7 := rfl
    omega
  | .date p => by
    simp only [msrV, encXml, List.length_append]
    have h1 : (strB ("<date>")).length = 6 := rfl
    have h2 : (strB ("</date>")).length = 7 := rfl
    omega
  | .string s => by
    by_cases hnil : s = []
    · rw [show encXml (.string s) = strB ("<string />") by rw [encXml, if_pos hnil]]
      simp only [msrV]
      have h1 : (strB ("<string />")).length = 10 := rfl
      omega
    · rw [show encXml (.string s) = strB ("<string>") ++ (xesc s ++ strB ("</string>"))
        by rw [encXml, if_neg hnil]]
      simp only [msrV, List.length_append]
      have h1 : (strB ("<string>")).length = 8 := rfl
      have h2 : (strB ("</string>")).length = 9 := rfl
      omega
  | .uuid u => by
    by_cases hz : u = List.replicate 16 0
    · rw [show encXml (.uuid u) = strB ("<uuid />") by rw [encXml, if_pos hz]]
      simp only [msrV]
      have h1 : (strB ("<uuid />")).length = 8 := rfl
      omega
    · rw [show encXml (.uuid u) = strB ("<uuid>") ++ (uuidText u ++ strB ("</uuid>"))
        by rw [encXml, if_neg hz]]
      simp only [msrV, List.length_append]
      have h1 : (strB ("<uuid>")).length = 6 := rfl
      have h2 : (strB ("</uuid>")).length = 7 := rfl
      omega
  | .uri s => by
    simp only [msrV, encXml, List.length_append]
    have h1 : (strB ("<uri>")).length = 5 := rfl
    have h2 : (strB ("</uri>")).length = 6 := rfl
    omega
  | .binary bs => by
    simp only [msrV, encXml, List.length_append]
    have h1 : (strB ("<binary encoding=\"base64\">")).length = 26 := rfl
    have h2 : (strB ("</binary>")).length = 9 := rfl
    omega
  | .array [] => by decide
  | .array (x :: t) => by
    have h1 := msrV_le_encXml x
    have h2 := msrL_le_encXmlL t
    simp only [msrV, msrL, encXml, encXmlL, List.length_append]
    have h3 : (strB ("<array>")).length = 7 := rfl
    have h4 : (strB ("</array>")).length = 8 := rfl
    omega
  | .map [] => by decide
  | .map (e :: t) => by
    have h1 := msrM_le_encXmlM (e :: t)
    simp only [msrV, encXml]
    simp only [List.length_append]
    have h3 : (strB ("<map>")).length = 5 := rfl
    have h4 : (strB ("</map>")).length = 6 := rfl
    omega

theorem msrL_le_encXmlL : ∀ (xs : List LLSD), msrL xs ≤ 2 * (encXmlL xs).length
  | [] => by simp [msrL, encXmlL]
  | x :: t => by
    have h1 := msrV_le_encXml x
    have h2 := msrL_le_encXmlL t
    simp only [msrL, encXmlL, List.length_append]
    omega

theorem msrM_le_encXmlM : ∀ (m : List (List Nat × LLSD)), msrM m ≤ 2 * (encXmlM m).length
  | [] => by simp [msrM, encXmlM]
  | (k, v) :: t => by
    have h1 := msrV_le_encXml v
    have h2 := msrM_le_encXmlM t
    simp only [msrM, encXmlM, List.length_append, List.length_cons]
    have h3 : (strB ("<key>")).length = 5 := rfl
    have h4 : (strB ("</key>")).length = 6 := rfl
    omega

end

/-- XML facade round trip. -/
theorem fromXml_toXml (v : LLSD) (h : wfV v = true) :
    fromXml (toXml v).1 = (v, (nodesV v : Int)) := by
  have hmsr := msrV_le_encXml v
  simp only [toXml, fromXml, prsXmlDoc]
  rw [show parseTag (strB ("<llsd>") ++ (encXml v ++ strB ("</llsd>\n"))) =
      some (.opn (strB ("llsd")), encXml v ++ strB ("</llsd>\n")) from rfl]
  simp only [if_true]
  have hfuel : msrV v ≤
      2 * (strB ("<llsd>") ++ (encXml v ++ strB ("</llsd>\n"))).length + 2 := by
    simp only [List.length_append]
    omega
  rw [prsXml_encXml v h (2 * (strB ("<llsd>") ++ (encXml v ++ strB ("</llsd>\n"))).length + 2)
    hfuel (strB ("</llsd>\n"))]
  simp only []
  rw [show parseTag (strB ("</llsd>\n")) = some (.cls (strB ("llsd")), [10]) from rfl]
  simp only [if_true]

/-- Every value tree holds at least one node. -/
theorem nodesV_pos (v : LLSD) : 1 ≤ nodesV v := by
  cases v <;> simp [nodesV]

/-- C1: for every representable (well-formed) value and each of the three
codecs, formatting then parsing returns the same value with the format call's
own count, and the parse does not report the failure sentinel. -/
theorem c1_round_trip_three_codecs (v : LLSD) (h : wfV v = true) :
    fromBinary (toBinary v).1 = (v, (toBinary v).2) ∧
    fromNtn (toNtn v).1 = (v, (toNtn v).2) ∧
    fromXml (toXml v).1 = (v, (toXml v).2) ∧
    (toBinary v).2 ≠ PARSE_FAILURE ∧ (toNtn v).2 ≠ PARSE_FAILURE ∧
    (toXml v).2 ≠ PARSE_FAILURE := by
  have hp := nodesV_pos v
  refine ⟨fromBinary_toBinary v h, fromNtn_toNtn v h, fromXml_toXml v h, ?_, ?_, ?_⟩ <;>
    · simp only [toBinary, toNtn, toXml, PARSE_FAILURE]
      omega

/-- Witness for C1 at a concrete two-entry map. -/
theorem c1_round_trip_three_codecs_witness :
    wfV (.map [(strB ("baz"), .undef), (strB ("foo"), .string (strB ("bar")))]) = true ∧
    (fromBinary (toBinary (.map [(strB ("baz"), .undef),
        (strB ("foo"), .string (strB ("bar")))])).1 =
      (.map [(strB ("baz"), .undef), (strB ("foo"), .string (strB ("bar")))],
        (toBinary (.map [(strB ("baz"), .undef),
          (strB ("foo"), .string (strB ("bar")))])).2) ∧
     fromNtn (toNtn (.map [(strB ("baz"), .undef),
        (strB ("foo"), .string (strB ("bar")))])).1 =
      (.map [(strB ("baz"), .undef), (strB ("foo"), .string (strB ("bar")))],
        (toNtn (.map [(strB ("baz"), .undef),
          (strB ("foo"), .string (strB ("bar")))])).2) ∧
     fromXml (toXml (.map [(strB ("baz"), .undef),
        (strB ("foo"), .string (strB ("bar")))])).1 =
      (.map [(strB ("baz"), .undef), (strB ("foo"), .string (strB ("bar")))],
        (toXml (.map [(strB ("baz"), .undef),
          (strB ("foo"), .string (strB ("bar")))])).2) ∧
     (toBinary (.map [(strB ("baz"), .undef),
        (strB ("foo"), .string (strB ("bar")))])).2 ≠ PARSE_FAILURE ∧
     (toNtn (.map [(strB ("baz"), .undef),
        (strB ("foo"), .string (strB ("bar")))])).2 ≠ PARSE_FAILURE ∧
     (toXml (.map [(strB ("baz"), .undef),
        (strB ("foo"), .string (strB ("bar")))])).2 ≠ PARSE_FAILURE) :=
  ⟨by decide, c1_round_trip_three_codecs
    (.map [(strB ("baz"), .undef), (strB ("foo"), .string (strB ("bar")))]) (by decide)⟩

set_option maxRecDepth 10000 in
/-- C2 counterexample: the cited map-with-html document parses with node
count 3 (the key-less html child is skipped without a count), not 4. -/
theorem c2_node_count_counterexample :
    (fromXml (strB ("<llsd><map><key>amy</key><integer>23</integer><html><body>x</body></html><key>cam</key><real>1.23</real></map></llsd>"))).2 = 3 ∧
    ¬((fromXml (strB ("<llsd><map><key>amy</key><integer>23</integer><html><body>x</body></html><key>cam</key><real>1.23</real></map></llsd>"))).2 = 4) := by
  decide

set_option maxRecDepth 10000 in
/-- C2 amended: local recovery substitutes a counted Undefined for an
unrecognized child only at value positions — an array child, or a map child
that follows a key; a key-less map child is skipped with no count, so the
cited document yields the two-entry map with node count 3, while a keyed
unknown element and an unknown array child each count one Undefined node. -/
theorem c2_container_recovery_amended :
    fromXml (strB ("<llsd><map><key>amy</key><integer>23</integer><html><body>x</body></html><key>cam</key><real>1.23</real></map></llsd>")) =
      (.map [(strB ("amy"), .integer 23), (strB ("cam"), .real (realOfText (strB ("1.23"))))], 3) ∧
    fromXml (strB ("<llsd><map><key>amy</key><integer>23</integer><key>bob</key><bigint>99999999999999999</bigint><key>cam</key><real>1.23</real></map></llsd>")) =
      (.map [(strB ("amy"), .integer 23), (strB ("bob"), .undef),
        (strB ("cam"), .real (realOfText (strB ("1.23"))))], 4) ∧
    fromXml (strB ("<llsd><array><integer>23</integer><html><body>x</body></html><real>1.23</real></array></llsd>")) =
      (.array [.integer 23, .undef, .real (realOfText (strB ("1.23")))], 4) := by
  decide

set_option maxRecDepth 10000 in
/-- C3: a failed binary or notation parse yields exactly the Undefined value
with the failure sentinel — shown in general for both facades, and on the
cited inputs: truncated notation containers, and a binary map whose single
well-formed entry was already consumed before the missing terminator. -/
theorem c3_failure_yields_undef_only :
    (∀ input : List Nat, (fromBinary input).2 = PARSE_FAILURE →
      fromBinary input = (.undef, PARSE_FAILURE)) ∧
    (∀ input : List Nat, (fromNtn input).2 = PARSE_FAILURE →
      fromNtn input = (.undef, PARSE_FAILURE)) ∧
    fromNtn (obrB :: (sqB :: (strB ("ha ha") ++ [sqB]))) = (.undef, PARSE_FAILURE) ∧
    fromNtn (91 :: (sqB :: (strB ("ha ha") ++ [sqB]))) = (.undef, PARSE_FAILURE) ∧
    fromBinary (123 :: (be32 1 ++ (107 :: (be32 3 ++
      (97 :: 109 :: 121 :: (105 :: be32 23)))))) = (.undef, PARSE_FAILURE) := by
  refine ⟨?_, ?_, by decide, by decide, by decide⟩
  · intro input h
    unfold fromBinary at h ⊢
    rcases hpb : prsBin (2 * input.length + 2) input with _ | ⟨v2, rest2, c2⟩
    · rfl
    · exfalso
      rw [hpb] at h
      have h2 : (c2 : Int) = PARSE_FAILURE := h
      simp only [PARSE_FAILURE] at h2
      omega
  · intro input h
    unfold fromNtn at h ⊢
    rcases hpn : prsNtn (2 * input.length + 2) input with _ | ⟨v2, rest2, c2⟩
    · rfl
    · exfalso
      rw [hpn] at h
      have h2 : (c2 : Int) = PARSE_FAILURE := h
      simp only [PARSE_FAILURE] at h2
      omega

set_option maxRecDepth 10000 in
/-- C4 counterexample: a binary byte length declared one smaller than the
framed content does not fail — the parser reads the declared prefix and
succeeds at top level, leaving the extra byte unread. -/
theorem c4_under_declared_counterexample :
    fromBinary (98 :: (be32 5 ++ strB ("abc321"))) = (.binary (strB ("abc32")), 1) ∧
    ¬((fromBinary (98 :: (be32 5 ++ strB ("abc321")))).2 = PARSE_FAILURE) := by
  decide

set_option maxRecDepth 10000 in
/-- C4 amended: a declared byte length larger than the framed content fails
(by one or by far); a notation sized string whose size is off by one in
either direction fails while the exact size succeeds; and a binary map must
consume exactly the declared entry count and then its terminator — a count
one high or one low, a wrong key size, or a missing terminator each fail —
but a binary length one smaller than the content succeeds at top level. -/
theorem c4_length_exactness_amended :
    fromBinary (98 :: (be32 6 ++ strB ("abc321"))) = (.binary (strB ("abc321")), 1) ∧
    fromBinary (98 :: (be32 7 ++ strB ("abc321"))) = (.undef, PARSE_FAILURE) ∧
    fromBinary (98 :: (be32 100000 ++ strB ("abc321"))) = (.undef, PARSE_FAILURE) ∧
    fromNtn (strB ("s(8)\"whatever\"")) = (.string (strB ("whatever")), 1) ∧
    fromNtn (strB ("s(7)\"whatever\"")) = (.undef, PARSE_FAILURE) ∧
    fromNtn (strB ("s(9)\"whatever\"")) = (.undef, PARSE_FAILURE) ∧
    fromBinary (123 :: (be32 1 ++ (107 :: (be32 3 ++
      (97 :: 109 :: 121 :: (105 :: (be32 23 ++ [125]))))))) =
      (.map [([97, 109, 121], .integer 23)], 2) ∧
    fromBinary (123 :: (be32 1 ++ (107 :: (be32 1 ++
      (97 :: 109 :: 121 :: (105 :: (be32 23 ++ [125]))))))) = (.undef, PARSE_FAILURE) ∧
    fromBinary (123 :: (be32 0 ++ (107 :: (be32 3 ++
      (97 :: 109 :: 121 :: (105 :: (be32 23 ++ [125]))))))) = (.undef, PARSE_FAILURE) ∧
    fromBinary (123 :: (be32 2 ++ (107 :: (be32 3 ++
      (97 :: 109 :: 121 :: (105 :: (be32 23 ++ [125]))))))) = (.undef, PARSE_FAILURE) ∧
    fromBinary (123 :: (be32 1 ++ (107 :: (be32 3 ++
      (97 :: 109 :: 121 :: (105 :: be32 23)))))) = (.undef, PARSE_FAILURE) := by
  decide

set_option maxRecDepth 10000 in
/-- C5: document-level malformation — a truncated document, a foreign root,
or a bare value element or bare key with no llsd root — fails the whole XML
parse with Undefined and the failure sentinel; in general every document the
document parser rejects yields exactly that pair. -/
theorem c5_document_level_failure :
    fromXml (strB ("<llsd><string>ha ha</string>")) = (.undef, PARSE_FAILURE) ∧
    fromXml (strB ("<html><body><p>ha ha</p></body></html>")) = (.undef, PARSE_FAILURE) ∧
    fromXml (strB ("<string>ha ha</string>")) = (.undef, PARSE_FAILURE) ∧
    fromXml (strB ("<key>ha ha</key>")) = (.undef, PARSE_FAILURE) ∧
    (∀ input : List Nat, prsXmlDoc input = none →
      fromXml input = (.undef, PARSE_FAILURE)) := by
  refine ⟨by decide, by decide, by decide, by decide, ?_⟩
  intro input h
  unfold fromXml
  rw [h]

set_option maxRecDepth 10000 in
/-- C6 counterexample: a binary map wire carrying the same key twice parses
successfully with node count 3, but the parsed one-entry map re-encodes with
node count 2, so the counts reported by the binary parse and by the
re-encoding calls are not all equal. -/
theorem c6_node_count_counterexample :
    (fromBinary (123 :: (be32 2 ++ (107 :: (be32 1 ++ (97 :: (33 ::
      (107 :: (be32 1 ++ (97 :: (33 :: [125]))))))))))).2 = 3 ∧
    (toNtn (fromBinary (123 :: (be32 2 ++ (107 :: (be32 1 ++ (97 :: (33 ::
      (107 :: (be32 1 ++ (97 :: (33 :: [125]))))))))))).1).2 = 2 ∧
    ¬((toNtn (fromBinary (123 :: (be32 2 ++ (107 :: (be32 1 ++ (97 :: (33 ::
      (107 :: (be32 1 ++ (97 :: (33 :: [125]))))))))))).1).2 =
      (fromBinary (123 :: (be32 2 ++ (107 :: (be32 1 ++ (97 :: (33 ::
        (107 :: (be32 1 ++ (97 :: (33 :: [125]))))))))))).2) := by
  decide

/-- C6 amended: a value obtained by a successful binary parse of a byte-valued
input is well formed, so re-encoding it to notation or XML and parsing that
text reproduces the same value, and the notation and XML format and re-parse
calls all report the value's node count; the binary parse's own count can
exceed it when the wire held duplicate keys. -/
theorem c6_cross_format_amended (input : List Nat) (hb : ∀ b ∈ input, b < 256)
    (v : LLSD) (c : Int) (hp : fromBinary input = (v, c)) (hs : c ≠ PARSE_FAILURE) :
    fromNtn (toNtn v).1 = (v, (toNtn v).2) ∧
    fromXml (toXml v).1 = (v, (toXml v).2) ∧
    (toNtn v).2 = (toXml v).2 := by
  have hwf : wfV v = true := by
    unfold fromBinary at hp
    rcases hpb : prsBin (2 * input.length + 2) input with _ | ⟨v2, rest2, c2⟩
    · rw [hpb] at hp
      simp only [Prod.mk.injEq] at hp
      exact absurd hp.2.symm hs
    · rw [hpb] at hp
      simp only [Prod.mk.injEq] at hp
      obtain ⟨h1, h2⟩ := hp
      subst h1
      exact (prsBin_wf _ input v2 rest2 c2 hb hpb).1
  exact ⟨fromNtn_toNtn v hwf, fromXml_toXml v hwf, rfl⟩

/-- Witness for C6 at the one-byte undef wire. -/
theorem c6_cross_format_amended_witness :
    (∀ b ∈ [33], b < 256) ∧ fromBinary [33] = (.undef, 1) ∧
    ((1 : Int) ≠ PARSE_FAILURE) ∧
    (fromNtn (toNtn .undef).1 = (.undef, (toNtn .undef).2) ∧
     fromXml (toXml .undef).1 = (.undef, (toXml .undef).2) ∧
     (toNtn .undef).2 = (toXml .undef).2) :=
  ⟨by decide, by decide, by decide,
   c6_cross_format_amended [33] (by decide) .undef 1 (by decide) (by decide)⟩

/-- C7: the notation parser accepts exactly the ten listed boolean spellings
with node count 1 and rejects other spellings and bare decimal literals with
the failure sentinel. -/
theorem c7_notation_boolean_spellings :
    fromNtn (strB ("true")) = (.boolean true, 1) ∧
    fromNtn (strB ("t")) = (.boolean true, 1) ∧
    fromNtn (strB ("1")) = (.boolean true, 1) ∧
    fromNtn (strB ("T")) = (.boolean true, 1) ∧
    fromNtn (strB ("TRUE")) = (.boolean true, 1) ∧
    fromNtn (strB ("false")) = (.boolean false, 1) ∧
    fromNtn (strB ("f")) = (.boolean false, 1) ∧
    fromNtn (strB ("0")) = (.boolean false, 1) ∧
    fromNtn (strB ("F")) = (.boolean false, 1) ∧
    fromNtn (strB ("FALSE")) = (.boolean false, 1) ∧
    fromNtn (strB ("TR")) = (.undef, PARSE_FAILURE) ∧
    fromNtn (strB ("FAL")) = (.undef, PARSE_FAILURE) ∧
    fromNtn (strB ("421")) = (.undef, PARSE_FAILURE) ∧
    fromNtn (strB ("456.7")) = (.undef, PARSE_FAILURE) := by
  decide

set_option maxRecDepth 10000 in
/-- C8: map insertion keeps entries sorted by the lexicographic key order, so
wire order is key order in every encoding; inserting foo and then baz yields
the XML document with baz first, as cited. -/
theorem c8_map_lexicographic_order (k : List Nat) (v : LLSD)
    (m : List (List Nat × LLSD)) (h : keysSorted m = true) :
    keysSorted (mapSet k v m) = true ∧
    toXml (.map (mapSet (strB ("baz")) .undef
      (mapSet (strB ("foo")) (.string (strB ("bar"))) []))) =
      (strB ("<llsd><map><key>baz</key><undef /><key>foo</key><string>bar</string></map></llsd>\n"), 3) :=
  ⟨mapSet_sorted k v m h, by decide⟩

set_option maxRecDepth 10000 in
/-- Witness for C8 at a singleton insertion. -/
theorem c8_map_lexicographic_order_witness :
    keysSorted [] = true ∧
    (keysSorted (mapSet (strB ("a")) .undef []) = true ∧
     toXml (.map (mapSet (strB ("baz")) .undef
       (mapSet (strB ("foo")) (.string (strB ("bar"))) []))) =
       (strB ("<llsd><map><key>baz</key><undef /><key>foo</key><string>bar</string></map></llsd>\n"), 3)) :=
  ⟨rfl, c8_map_lexicographic_order (strB ("a")) .undef [] rfl⟩

/-- C9 counterexample: formatting the integer zero writes five bytes but the
facade returns 1 — the node count, not the byte count. -/
theorem c9_byte_count_counterexample :
    (toBinary (.integer 0)).2 = 1 ∧ ((toBinary (.integer 0)).1).length = 5 ∧
    ¬((toBinary (.integer 0)).2 = (((toBinary (.integer 0)).1).length : Int)) := by
  decide

/-- C9 amended: for every well-formed value, the binary format facade returns
the number of LLSD nodes formatted, and parsing the formatted bytes reports
that same count. -/
theorem c9_to_binary_count_amended (v : LLSD) (h : wfV v = true) :
    (toBinary v).2 = (nodesV v : Int) ∧
    (fromBinary (toBinary v).1).2 = (nodesV v : Int) := by
  refine ⟨rfl, ?_⟩
  rw [fromBinary_toBinary v h]

/-- Witness for C9 at the integer zero. -/
theorem c9_to_binary_count_amended_witness :
    wfV (.integer 0) = true ∧
    ((toBinary (.integer 0)).2 = (nodesV (.integer 0) : Int) ∧
     (fromBinary (toBinary (.integer 0)).1).2 = (nodesV (.integer 0) : Int)) :=
  ⟨by decide, c9_to_binary_count_amended (.integer 0) (by decide)⟩

set_option maxRecDepth 10000 in
/-- C10: a base64 binary element whose text is split by embedded newlines
parses to the same bytes as the unbroken text, here the word hello, with node
count 1. -/
theorem c10_multiline_base64 :
    fromXml (strB ("<llsd><binary encoding=\"base64\">aGVs\nbG8=</binary></llsd>\n")) =
      (.binary (strB ("hello")), 1) ∧
    fromXml (strB ("<llsd><binary encoding=\"base64\">aGVs\nbG8=</binary></llsd>\n")) =
      fromXml (strB ("<llsd><binary encoding=\"base64\">aGVsbG8=</binary></llsd>\n")) := by
  decide
